import Mathlib

/-!
A shallow embedding of zeek::String (src/ZeekString.cc).

A `zeek::String` is a byte buffer that carries its own length `n`, a flag
`final_NUL` saying whether the byte at index `n` is a terminating NUL that is
part of the allocation, and an ownership tag `use_free_to_delete`.

Conventions of the embedding:

* a byte (`u_char`) is a `Fin 256`;
* a pointer to storage is an `Option (List Byte)`: `none` is `nullptr`,
  `some mem` is the allocation the pointer designates, `mem.length` being its
  size; a pointer into the middle of an allocation (`&b[start]`) is the
  allocation with the first `start` bytes dropped;
* `int` values are integers (`Int`); what an `int` expression gives once its
  mathematical value leaves the range of `int` is `intWrap`. The working
  buffer of `Render` is requested with the `int` expression `n*4 + 1`, which
  leaves that range for buffers that exist (from `n = 2^29` on):
  `workingBufferSize` and `allocWorkingBuffer` give what is allocated then,
  and `Render` describes the value returned when that expression does not
  overflow;
* a member function that mutates `*this` takes the object and returns the new
  object.
-/

namespace zeek

/-- A `u_char`. -/
abbrev Byte := Fin 256

/-- The data members of `zeek::String`: `b`, `n`, `final_NUL`,
`use_free_to_delete`. -/
structure ZeekString where
  b : Option (List Byte)
  n : Int
  final_NUL : Bool
  use_free_to_delete : Bool
deriving DecidableEq

namespace ZeekString

/-- The allocation behind `b` (nothing for `nullptr`). -/
def mem (s : ZeekString) : List Byte := s.b.getD []

/-- The content of the buffer: the first `Len()` bytes found at `Bytes()`. -/
def bytes (s : ZeekString) : List Byte := s.mem.take s.n.toNat

/-- The value of `final_NUL` when it is used as an integer (`n + final_NUL`). -/
def nulCount (s : ZeekString) : Int := if s.final_NUL then 1 else 0

/-- The data-model invariant of a buffer: `n >= 0`; null storage goes with
`n == 0` and no final NUL; the allocation holds `n + final_NUL` bytes; and when
`final_NUL` is set the byte at index `n` is zero. -/
def Inv (s : ZeekString) : Prop :=
  0 ≤ s.n ∧
  (s.b = none → s.n = 0 ∧ s.final_NUL = false) ∧
  s.n + s.nulCount ≤ (s.mem.length : Int) ∧
  (s.final_NUL = true → s.mem[s.n.toNat]? = some 0)

instance (s : ZeekString) : Decidable (Inv s) := by
  unfold Inv; infer_instance

/-- The constructor `String::String()`. -/
def String : ZeekString :=
  { b := none, n := 0, final_NUL := false, use_free_to_delete := false }

/-- The constructor `String::String(bool arg_final_NUL, byte_vec str, int arg_n)`. -/
def StringAdopted (arg_final_NUL : Bool) (str : Option (List Byte)) (arg_n : Int) : ZeekString :=
  { b := str, n := arg_n, final_NUL := arg_final_NUL, use_free_to_delete := false }

/-- The function `String::Reset`: the storage is released (by `free` or by
`delete []`, according to the tag) and every field is cleared. -/
def Reset (_self : ZeekString) : ZeekString :=
  { b := none, n := 0, final_NUL := false, use_free_to_delete := false }

/-- The function `String::Set(const u_char* str, int len, bool add_NUL)`;
`str` is the memory readable from the pointer. The new allocation has
`len + 1` or `len` bytes, its first `len` bytes are copied from `str`, and
with `add_NUL` the byte at index `len` is set to zero. -/
def Set (self : ZeekString) (str : List Byte) (len : Int) (add_NUL : Bool) : ZeekString :=
  let self := Reset self
  let self := { self with n := len }
  let b := str.take self.n.toNat ++ (if add_NUL then [0] else [])
  { self with b := some b, final_NUL := add_NUL, use_free_to_delete := false }

/-- The constructor `String::String(const u_char* str, int arg_n, bool add_NUL)`. -/
def StringBytes (str : List Byte) (arg_n : Int) (add_NUL : Bool) : ZeekString :=
  Set String str arg_n add_NUL

/-- The function `String::GetSubstring(int start, int len)`; `none` is the
`nullptr` result. -/
def GetSubstring (self : ZeekString) (start len : Int) : Option ZeekString :=
  if start < 0 ∨ start > self.n then none
  else
    let len := if len < 0 ∨ len > self.n - start then self.n - start else len
    some (StringBytes (self.mem.drop start.toNat) len true)

/-- The sanity loop of `String::Split`: an index that is `>= n` or `< 0` is
overwritten with 0. -/
def sanitize (n : Int) (idx : List Int) : List Int :=
  idx.map (fun x => if x ≥ n ∨ x < 0 then 0 else x)

/-- The call `std::unique(idx.begin(), idx.end())`: of every run of equal
consecutive elements only the first is kept; the result is the range
`[idx.begin(), end)`. -/
def unique : List Int → List Int
  | [] => []
  | [x] => [x]
  | x :: y :: rest => if x = y then unique (y :: rest) else x :: unique (y :: rest)

/-- The final loop of `String::Split` over `[idx.begin(), end)`: each element
starts a substring; its length is the distance to the next element, and `-1`
for the last one. -/
def splitLoop (self : ZeekString) : List Int → List (Option ZeekString)
  | [] => []
  | [x] => [GetSubstring self x (-1)]
  | x :: y :: rest => GetSubstring self x (y - x) :: splitLoop self (y :: rest)

/-- The function `String::Split(const IdxVec& indices)`; `none` is the
`nullptr` result, and an element of the vector is a `String*`. The vector
`idx` is created with `1 + indices.size()` zero elements and the indices are
inserted at its end; `std::sort` is taken as the ascending sort of the
integers. -/
def Split (self : ZeekString) (indices : List Int) : Option (List (Option ZeekString)) :=
  if indices.isEmpty then none
  else
    let idx := (List.replicate (1 + indices.length) (0 : Int)).set 0 0
    let idx := idx ++ indices
    let idx := sanitize self.n idx
    let idx := idx.insertionSort (· ≤ ·)
    let idx := unique idx
    some (splitLoop self idx)

/-- The function `String::Adopt(byte_vec bytes, int len)`: the object takes
over the array `bytes`; `final_NUL` is the outcome of `b[len-1] == 0` and `n`
is `len - final_NUL`. -/
def Adopt (self : ZeekString) (bytes : List Byte) (len : Int) : ZeekString :=
  let self := Reset self
  let self := { self with b := some bytes }
  let final_NUL := decide (self.mem[(len - 1).toNat]? = some 0)
  { self with final_NUL := final_NUL, n := len - (if final_NUL then 1 else 0) }

/-- The library function `strlen`: the number of bytes before the first zero
byte of the memory at the pointer. -/
def strlen : List Byte → Nat
  | [] => 0
  | c :: m => if c = 0 then 0 else strlen m + 1

/-- The function `String::Set(const char* str)`; `none` is a null `str`, and
`some m` a pointer to the memory `m`. For a non-null `str` the `strlen(str) + 1`
bytes at `str` are copied. -/
def SetCStr (self : ZeekString) (str : Option (List Byte)) : ZeekString :=
  let self := Reset self
  match str with
  | none => self
  | some m =>
    let n : Int := strlen m
    { self with n := n, b := some (m.take (n + 1).toNat), final_NUL := true,
                use_free_to_delete := false }

/-- The constructor `String::String(const char* str)`. -/
def StringCStr (str : Option (List Byte)) : ZeekString :=
  SetCStr String str

/-- Modelled from the spec: the `render_style` constants `ESC_ESC`, `ESC_QUOT`,
`ESC_HEX`, `ESC_DOT`, `ESC_SER` are declared in `ZeekString.h`, which is not
among the sources; the spec describes the format as a bitmask of independent
rules of which any subset may be combined. A format is given by the outcome of
the five tests `format & ESC_X` that `Render` and `Read` perform. -/
structure Format where
  esc : Bool
  quot : Bool
  hex : Bool
  dot : Bool
  ser : Bool
deriving DecidableEq

/-- The working buffer `s` of `Render` together with the write pointer `sp`,
kept as its offset from `s`. A cell that has not been written yet holds
`none`. -/
structure WorkBuf where
  s : List (Option Byte)
  sp : Nat
deriving DecidableEq

/-- The statement `*sp++ = c`. There is no result when `sp` points outside
the working buffer. -/
def put (w : WorkBuf) (c : Byte) : Option WorkBuf :=
  if w.sp < w.s.length then some { s := w.s.set w.sp (some c), sp := w.sp + 1 } else none

/-- The character that the conversion `%x` prints for a value below 16: the
digit `'0' + d` below ten and the letter `'a' + (d - 10)` from ten on. -/
def hexDigit (d : Nat) : Byte :=
  if d < 10 then Fin.ofNat (48 + d) else Fin.ofNat (87 + d)

/-- The two characters that `sprintf(hex_fmt, "%02x", b[i])` leaves in
`hex_fmt[0]` and `hex_fmt[1]`. -/
def sprintf_02x (c : Byte) : Byte × Byte :=
  (hexDigit (c.val / 16), hexDigit (c.val % 16))

/-- The body of the escaping loop of `String::Render` for the byte `c = b[i]`:
`'\\'` is 92, `'\''` is 39, `'"'` is 34, `' '` is 32, `'x'` is 120 and `'.'`
is 46. -/
def renderByte (format : Format) (w : WorkBuf) (c : Byte) : Option WorkBuf :=
  if c = 92 ∧ format.esc = true then do
    let w ← put w 92
    put w 92
  else if (c = 39 ∨ c = 34) ∧ format.quot = true then do
    let w ← put w 92
    put w c
  else if (c < 32 ∨ c > 126) ∧ format.hex = true then do
    let w ← put w 92
    let w ← put w 120
    let hex_fmt := sprintf_02x c
    let w ← put w hex_fmt.1
    put w hex_fmt.2
  else if (c < 32 ∨ c > 126) ∧ format.dot = true then
    put w 46
  else
    put w c

/-- The escaping loop `for ( int i = 0; i < n; ++i )` of `String::Render`,
over the bytes `b[0]`, ..., `b[n-1]`. -/
def renderLoop (format : Format) : List Byte → WorkBuf → Option WorkBuf
  | [], w => some w
  | c :: rest, w => (renderByte format w c).bind (renderLoop format rest)

/-- Reading back the bytes of a range of the working buffer; there is no
result when a cell of the range was never written. -/
def readOut : List (Option Byte) → Option (List Byte)
  | [] => some []
  | none :: _ => none
  | some c :: rest => (readOut rest).map (c :: ·)

/-- The digits that `"%u"` prints, most significant first; `fuel` bounds the
number of digits. -/
def utoa : Nat → Nat → List Byte → List Byte
  | 0, _, acc => acc
  | fuel + 1, v, acc =>
    if v < 10 then Fin.ofNat (48 + v) :: acc
    else utoa fuel (v / 10) (Fin.ofNat (48 + v % 10) :: acc)

/-- The text that `"%u"` prints for `v`. -/
def decimal (v : Nat) : List Byte := utoa (v + 1) v []

/-- The function `String::Render(int format, int* len)`. The result is the
array of `tmp_len` bytes at the returned pointer (so the value stored in
`*len` is its length). There is no result when a write falls outside the
buffer it goes to. The working buffer is taken with `n*4 + 1` bytes, the
value of that expression when it does not overflow `int`; the buffer that
line 187 allocates for any `n` is `allocWorkingBuffer`, and the two agree when
`n*4 + 1` is at most `INT_MAX`. With `ESC_SER`, `snprintf` puts at most `tmp_len + 15`
characters of the text `"%u "` into `result`, and `memcpy` then writes
`sp - s` bytes at offset `strlen(result)` of the `tmp_len + 16` bytes. -/
def Render (self : ZeekString) (format : Format) : Option (List Byte) := do
  let s : List (Option Byte) := List.replicate (self.n * 4 + 1).toNat none
  let w ← renderLoop format self.bytes { s := s, sp := 0 }
  let w ← put w 0
  let tmp_len := w.sp
  let body ← readOut (w.s.take w.sp)
  if format.ser = true then
    let size := tmp_len + 16
    let result := (decimal (tmp_len - 1) ++ [32]).take (size - 1)
    if result.length + w.sp ≤ size then some (result ++ body) else none
  else
    some body

/-- The library function `memchr(m, c, count)`: the offset of the first byte
equal to `c` among the first `count` bytes of `m`, and `none` (a null pointer)
when there is none. -/
def memchr : List Byte → Byte → Nat → Option Nat
  | _, _, 0 => none
  | [], _, _ + 1 => none
  | x :: m, c, k + 1 => if x = c then some 0 else (memchr m c k).map (· + 1)

/-- The pointer that `String::CheckString` returns: the literal `""`, the
literal `"<string-with-NUL>"`, or the storage `b` of the object. -/
inductive CheckResult where
  | emptyLiteral
  | sentinel
  | own (b : List Byte)
deriving DecidableEq

/-- The bytes of `"<string-with-NUL>"`. -/
def sentinelText : List Byte :=
  [60, 115, 116, 114, 105, 110, 103, 45, 119, 105, 116, 104, 45, 78, 85, 76, 62]

/-- The C string found at the pointer that `CheckString` returned: the bytes
before the first zero byte. -/
def CheckResult.cstr : CheckResult → List Byte
  | .emptyLiteral => []
  | .sentinel => sentinelText
  | .own b => b.take (strlen b)

/-- A call of `reporter->Error`: one of the two messages of `CheckString`,
with the rendering `exp_s` of the buffer that is put into it. -/
inductive Report where
  | embeddedNUL (exp_s : List Byte)
  | noTerminator (exp_s : List Byte)
deriving DecidableEq

/-- The function `String::CheckString`, returning the pointer and the reports
made. The format of the call `Render()` is the default argument declared in
`ZeekString.h`, which is not among the sources; it is the parameter
`default_format`. -/
def CheckString (self : ZeekString) (default_format : Format) :
    Option (CheckResult × List Report) :=
  if self.n = 0 then some (.emptyLiteral, [])
  else
    let nulTerm := memchr self.mem 0 (self.n + self.nulCount).toNat
    if nulTerm ≠ some self.n.toNat then do
      let exp_s ← Render self default_format
      if nulTerm.isSome then some (.sentinel, [.embeddedNUL exp_s])
      else some (.sentinel, [.noTerminator exp_s])
    else some (.own self.mem, [])

end ZeekString

/-- Modelled from the spec: the type `data_chunk_t` is declared in a header
that is not among the sources; the spec calls it a raw (pointer,length) pair.
`data` is the memory at the pointer. -/
structure data_chunk_t where
  length : Int
  data : List Byte
deriving DecidableEq

/-- The bytes a chunk designates: the first `length` bytes at `data`. -/
def data_chunk_t.bytes (c : data_chunk_t) : List Byte := c.data.take c.length.toNat

/-- A chunk whose `length` bytes exist at `data`. -/
def data_chunk_t.Valid (c : data_chunk_t) : Prop :=
  0 ≤ c.length ∧ c.length ≤ (c.data.length : Int)

instance (c : data_chunk_t) : Decidable c.Valid := by
  unfold data_chunk_t.Valid; infer_instance

/-- The function `concatenate(std::vector<data_chunk_t>& v)`: the first loop
sums the lengths, the second copies each chunk to the write pointer `b` and
advances it by the chunk's length, then `*b = 0`. `data` is the part of the
allocation written so far. -/
def concatenateChunks (v : List data_chunk_t) : ZeekString :=
  let len : Int := v.foldl (fun len c => len + c.length) 0
  let data : List Byte := v.foldl (fun data c => data ++ c.data.take c.length.toNat) []
  let data := data ++ [0]
  ZeekString.StringAdopted true (some data) len

/-- The function `concatenate(String::CVec& v)`, with `Len()` and `Bytes()` of
each element in the place of the chunk's `length` and `data`. -/
def concatenate (v : List ZeekString) : ZeekString :=
  let len : Int := v.foldl (fun len s => len + s.n) 0
  let data : List Byte := v.foldl (fun data s => data ++ s.mem.take s.n.toNat) []
  let data := data ++ [0]
  ZeekString.StringAdopted true (some data) len

/-- The function `concatenate(String::Vec& v)`: the pointers are copied into
a `CVec`, which is concatenated. -/
def concatenateVec (v : List ZeekString) : ZeekString :=
  let cv := v.foldl (fun cv s => cv ++ [s]) []
  concatenate cv

/-- The largest value of the type `int`. -/
def INT_MAX : Int := 2147483647

/-- The buffer holding a text and its final NUL, as `String(const char*)`
builds it. -/
def lit (s : List Byte) : ZeekString :=
  { b := some (s ++ [0]), n := s.length, final_NUL := true, use_free_to_delete := false }

/-- Written from the specification of `render`: the lowercase hex digits
`0123456789abcdef`. -/
def lowerHexDigits : List Byte :=
  [48, 49, 50, 51, 52, 53, 54, 55, 56, 57, 97, 98, 99, 100, 101, 102]

/-- Written from the specification of `render`: the lowercase hex digit for a
value below 16. -/
def specHexDigit (d : Nat) : Byte := lowerHexDigits.getD d 0

/-- Written from the specification of `render`: the encoding of one byte is
chosen by the first rule that matches, in the order ESC_ESC (backslash gives
two backslashes), ESC_QUOT (a single or double quote gives a backslash and the
quote), ESC_HEX (a byte below 0x20 or above 0x7E gives backslash, `x` and two
lowercase hex digits), ESC_DOT (a byte below 0x20 or above 0x7E gives a dot);
a byte that no rule matches is copied. -/
def specEncodeByte (format : ZeekString.Format) (c : Byte) : List Byte :=
  if format.esc = true ∧ c = 92 then [92, 92]
  else if format.quot = true ∧ (c = 39 ∨ c = 34) then [92, c]
  else if format.hex = true ∧ (c.val < 0x20 ∨ c.val > 0x7E) then
    [92, 120, specHexDigit (c.val / 16), specHexDigit (c.val % 16)]
  else if format.dot = true ∧ (c.val < 0x20 ∨ c.val > 0x7E) then [46]
  else [c]

/-- Written from the specification of `render`: the escaped text is the
concatenation of the encodings of the bytes, in order. -/
def specEscape (format : ZeekString.Format) (content : List Byte) : List Byte :=
  (content.map (specEncodeByte format)).flatten

/-- A sequence of statements `*sp++ = c`, one for each byte of a list. -/
def putAll (w : ZeekString.WorkBuf) : List Byte → Option ZeekString.WorkBuf
  | [] => some w
  | c :: cs => (ZeekString.put w c).bind (fun w => putAll w cs)

/-- The number that a text of decimal digits denotes. -/
def decimalValue (digits : List Byte) : Nat :=
  digits.foldl (fun acc d => 10 * acc + (d.val - 48)) 0

/-- The value of a lowercase hex digit. -/
def unhexDigit (c : Byte) : Nat := if c.val ≤ 57 then c.val - 48 else c.val - 87

/-- Reading one encoding back from the front of an escaped text: the byte it
stands for and the text that follows it. It serves the proofs that `Render` is
injective. -/
def unescapeByte (format : ZeekString.Format) : List Byte → Option (Byte × List Byte)
  | [] => none
  | c :: rest =>
    if c = 92 then
      match rest with
      | d :: rest2 =>
        if d = 92 ∧ format.esc = true then some (92, rest2)
        else if (d = 39 ∨ d = 34) ∧ format.quot = true then some (d, rest2)
        else if d = 120 ∧ format.hex = true then
          match rest2 with
          | h :: l :: rest3 => some (Fin.ofNat (16 * unhexDigit h + unhexDigit l), rest3)
          | _ => none
        else some (c, rest)
      | [] => some (c, rest)
    else some (c, rest)

/-- The formats under which `Render` loses nothing: ESC_DOT is set only
together with ESC_HEX, and ESC_HEX only together with ESC_ESC. -/
def ZeekString.Format.Lossless (format : ZeekString.Format) : Prop :=
  (format.dot = true → format.hex = true) ∧ (format.hex = true → format.esc = true)

instance (format : ZeekString.Format) : Decidable format.Lossless := by
  unfold ZeekString.Format.Lossless; infer_instance

/-- The format with no flag set. -/
def fmtNone : ZeekString.Format :=
  { esc := false, quot := false, hex := false, dot := false, ser := false }

/-- The format in which only ESC_DOT is set. -/
def fmtDot : ZeekString.Format :=
  { esc := false, quot := false, hex := false, dot := true, ser := false }

/-- The format in which only ESC_HEX is set. -/
def fmtHex : ZeekString.Format :=
  { esc := false, quot := false, hex := true, dot := false, ser := false }

/-- The format in which only ESC_SER is set. -/
def fmtSer : ZeekString.Format :=
  { esc := false, quot := false, hex := false, dot := false, ser := true }

/-- The format in which ESC_ESC, ESC_QUOT, ESC_HEX and ESC_DOT are set. -/
def fmtAll : ZeekString.Format :=
  { esc := true, quot := true, hex := true, dot := true, ser := false }

/-- The function `String::operator=(const String& bs)` for a destination
`self` that is not `bs` itself: after `Reset`, `n` is `bs.n`, the new array
has `n + 1` bytes, the first `n` copied from `bs.b`, and the byte at index `n`
set to zero. The source is passed by reference to `const` and is not written. -/
def ZeekString.operatorAssign (self bs : ZeekString) : ZeekString :=
  let self := ZeekString.Reset self
  let self := { self with n := bs.n }
  let b := bs.mem.take self.n.toNat ++ [0]
  { self with b := some b, final_NUL := true, use_free_to_delete := false }

/-- The constructor `String::String(const String& bs)`. -/
def ZeekString.StringCopy (bs : ZeekString) : ZeekString :=
  ZeekString.operatorAssign ZeekString.String bs

/-- The function `String::Set(const String& str)`. -/
def ZeekString.SetString (self str : ZeekString) : ZeekString :=
  ZeekString.operatorAssign self str

/-- The function `String::Set(const std::string& str)`; `str` is the content
of the text, of `str.size()` bytes, and `str.c_str()` is that content followed
by a zero byte. -/
def ZeekString.SetStdString (self : ZeekString) (str : List Byte) : ZeekString :=
  let self := ZeekString.Reset self
  let n : Int := str.length
  let c_str := str ++ [0]
  { self with n := n, b := some (c_str.take (n + 1).toNat), final_NUL := true,
              use_free_to_delete := false }

/-- The library function `islower` in the "C" locale. -/
def islower (c : Byte) : Bool := decide (97 ≤ c.val ∧ c.val ≤ 122)

/-- The library function `toupper` in the "C" locale. -/
def toupper (c : Byte) : Byte := if islower c = true then Fin.ofNat (c.val - 32) else c

/-- The function `String::ToUpper`: each of the bytes `b[0]`, ..., `b[n-1]`
that is a lowercase letter is replaced in place. -/
def ZeekString.ToUpper (self : ZeekString) : ZeekString :=
  { self with b := self.b.map (fun m =>
      (m.take self.n.toNat).map (fun c => if islower c = true then toupper c else c)
        ++ m.drop self.n.toNat) }

/-- The library function `memcmp(s1, s2, count)` on the memory at the two
pointers: zero when the first `count` bytes agree, and otherwise the
difference of the first two bytes that differ, taken as unsigned values (the
C standard fixes the sign of the result only). -/
def memcmp : List Byte → List Byte → Nat → Int
  | _, _, 0 => 0
  | x :: xs, y :: ys, k + 1 => if x = y then memcmp xs ys k else (x.val : Int) - (y.val : Int)
  | _, _, _ + 1 => 0

/-- The function `Bstr_eq`; the `int` it returns is 0 or 1 and is given as a
truth value. In the branch taken when one of the two pointers is null, the
comparison `s1->Bytes() == s2->Bytes()` holds exactly when both are null. -/
def Bstr_eq (s1 s2 : ZeekString) : Bool :=
  if s1.n ≠ s2.n then false
  else if s1.b.isNone ∨ s2.b.isNone then decide (s1.b.isNone ∧ s2.b.isNone)
  else decide (memcmp s1.mem s2.mem s1.n.toNat = 0)

/-- The function `Bstr_cmp`. -/
def Bstr_cmp (s1 s2 : ZeekString) : Int :=
  let n := min s1.n s2.n
  let cmp := if n = 0 then 0 else memcmp s1.mem s2.mem n.toNat
  if cmp ≠ 0 ∨ s1.n = s2.n then cmp
  else if s1.n < s2.n then -1
  else 1

/-- The function `String::operator==`. -/
def ZeekString.operatorEq (self bs : ZeekString) : Bool := Bstr_eq self bs

/-- The function `String::operator<`. -/
def ZeekString.operatorLt (self bs : ZeekString) : Bool := decide (Bstr_cmp self bs < 0)

/-- The library function `isspace` in the "C" locale. -/
def isspace (c : Byte) : Bool := decide (c.val = 32 ∨ (9 ≤ c.val ∧ c.val ≤ 13))

/-- The library function `isdigit`. -/
def isdigit (c : Byte) : Bool := decide (48 ≤ c.val ∧ c.val ≤ 57)

/-- The smallest value of the type `int`. -/
def INT_MIN : Int := -2147483648

/-- The extraction `is >> len` of an `int` from the bytes that remain in the
stream: leading whitespace is skipped, then an optional sign (`'-'` is 45 and
`'+'` is 43) and the decimal digits are taken. The result is the value and the bytes that remain; there is
no result when the stream goes into its failure state (no digit, or a value
outside of `int`). -/
def extractInt (is : List Byte) : Option (Int × List Byte) :=
  let is := is.dropWhile isspace
  let signed : Bool × List Byte :=
    match is with
    | c :: r => if c = 45 then (true, r) else if c = 43 then (false, r) else (false, is)
    | [] => (false, is)
  let digits := signed.2.takeWhile isdigit
  let rest := signed.2.dropWhile isdigit
  if digits.isEmpty then none
  else
    let v : Int := if signed.1 then -(decimalValue digits : Int) else (decimalValue digits : Int)
    if v > INT_MAX ∨ v < INT_MIN then none else some (v, rest)

/-- The function `String::Read(std::istream& is, int format)`; the stream is
given by the bytes that remain in it, and the result is the object and the
bytes that remain afterwards. There is no result when the stream goes into its
failure state (the bytes adopted are then not determined). With `ESC_SER`:
the length is extracted, one byte is read and dropped, `len` bytes are read
into a new array of `len + 1` bytes whose last byte is set to zero, and the
array is adopted. Otherwise one whitespace-delimited token is extracted and
set. -/
def ZeekString.Read (self : ZeekString) (is : List Byte) (format : ZeekString.Format) :
    Option (ZeekString × List Byte) :=
  if format.ser = true then
    match extractInt is with
    | none => none
    | some (len, is) =>
      match is with
      | [] => none
      | _c :: is =>
        if len < 0 ∨ (is.length : Int) < len then none
        else
          let buf := is.take len.toNat ++ [0]
          some (ZeekString.Adopt self buf (len + 1), is.drop len.toNat)
  else
    let is := is.dropWhile isspace
    let str := is.takeWhile (fun c => !isspace c)
    if str.isEmpty then none
    else some (ZeekString.SetStdString self str, is.dropWhile (fun c => !isspace c))

/-- The function `String::Render(std::ostream& os, int format)`; `os` is the
text written to the stream so far. The statement `os << tmp` writes the C
string at `tmp`: the bytes before its first zero byte. -/
def ZeekString.RenderTo (self : ZeekString) (os : List Byte) (format : ZeekString.Format) :
    Option (List Byte) :=
  (ZeekString.Render self format).map (fun tmp => os ++ tmp.take (ZeekString.strlen tmp))

/-- Written from the specification of `compare`: the lexicographic comparison
of two contents as unsigned bytes, -1, 0 or 1; on a tie of the common part the
shorter content comes first, and two equal contents give 0. -/
def specCompare : List Byte → List Byte → Int
  | [], [] => 0
  | [], _ :: _ => -1
  | _ :: _, [] => 1
  | x :: xs, y :: ys => if x.val < y.val then -1 else if y.val < x.val then 1 else specCompare xs ys

/-- The format in which ESC_ESC, ESC_QUOT and ESC_HEX are set, the value of
`BRO_STRING_LITERAL`. -/
def fmtLiteral : ZeekString.Format :=
  { esc := true, quot := true, hex := true, dot := false, ser := false }

/-- The split points that `String::Split` arrives at for a buffer of length
`n`: the vector `idx` after the sanity loop, `std::sort` and `std::unique`. -/
def splitPoints (n : Int) (indices : List Int) : List Int :=
  ZeekString.unique ((ZeekString.sanitize n
    ((List.replicate (1 + indices.length) (0 : Int)).set 0 0 ++ indices)).insertionSort (· ≤ ·))

/-- The value that an arithmetic expression of type `int` (32 bits, two's
complement) gives when its mathematical value is `x`: `x` itself inside the
range of `int`, and `x` reduced modulo `2^32` into that range outside of it. -/
def intWrap (x : Int) : Int := (x + 2147483648) % 4294967296 - 2147483648

/-- The expression `n*4 + 1` of `char* s = new char[n*4 + 1]` in
`String::Render`, evaluated in `int`: the product and then the sum. -/
def workingBufferSize (n : Int) : Int := intWrap (intWrap (n * 4) + 1)

/-- The allocation `char* s = new char[n*4 + 1]` of `String::Render`: a
buffer of as many unwritten cells as the `int` expression gives, and no buffer
when that value is negative (the allocation fails). -/
def allocWorkingBuffer (n : Int) : Option (List (Option Byte)) :=
  if workingBufferSize n < 0 then none
  else some (List.replicate (workingBufferSize n).toNat none)

/-- The cells of the working buffer before `sp` hold the text `l`. -/
def Written (w : ZeekString.WorkBuf) (l : List Byte) : Prop :=
  w.sp = l.length ∧ w.s.take w.sp = l.map some

end zeek

namespace zeek.ZeekString

/-! ## Split and GetSubstring -/

theorem mem_unique (a : Int) : ∀ l : List Int, a ∈ unique l ↔ a ∈ l
  | [] => by simp [unique]
  | [x] => by simp [unique]
  | x :: y :: rest => by
    have ih := mem_unique a (y :: rest)
    unfold unique
    split
    · rename_i h
      subst h
      rw [ih]
      simp
    · rw [List.mem_cons, ih]
      simp

theorem sorted_unique : ∀ l : List Int, l.Sorted (· ≤ ·) → (unique l).Sorted (· < ·)
  | [], _ => by simp [unique]
  | [x], _ => by simp [unique]
  | x :: y :: rest, h => by
    have hrest : (y :: rest).Sorted (· ≤ ·) := List.Sorted.of_cons h
    have ih := sorted_unique (y :: rest) hrest
    have hxy : x ≤ y := List.rel_of_sorted_cons h y (List.mem_cons_self _ _)
    unfold unique
    split
    · exact ih
    · rename_i hne
      refine List.sorted_cons.mpr ⟨?_, ih⟩
      intro z hz
      rw [mem_unique] at hz
      have hyz : y ≤ z := by
        rcases List.mem_cons.mp hz with h1 | h1
        · omega
        · exact List.rel_of_sorted_cons hrest z h1
      omega


theorem StringBytes_spec (m : List Byte) (L : Int) (h0 : 0 ≤ L) (hL : L ≤ (m.length : Int)) :
    (StringBytes m L true).n = L ∧
    (StringBytes m L true).final_NUL = true ∧
    (StringBytes m L true).use_free_to_delete = false ∧
    (StringBytes m L true).b = some (m.take L.toNat ++ [0]) ∧
    (StringBytes m L true).bytes = m.take L.toNat ∧
    ((StringBytes m L true).bytes.length : Int) = L ∧
    Inv (StringBytes m L true) := by
  have hlen : (m.take L.toNat).length = L.toNat := by
    rw [List.length_take]; omega
  refine ⟨rfl, rfl, rfl, rfl, ?_, ?_, ?_⟩
  · simp only [StringBytes, Set, Reset, bytes, mem, Option.getD_some, if_true]
    rw [List.take_append_of_le_length (by omega)]
    rw [List.take_take]; simp
  · simp only [StringBytes, Set, Reset, bytes, mem, Option.getD_some, if_true]
    rw [List.take_append_of_le_length (by omega)]
    rw [List.take_take]; simp; omega
  · simp only [Inv, StringBytes, Set, Reset, mem, nulCount, Option.getD_some, if_true]
    refine ⟨h0, by simp, ?_, ?_⟩
    · simp; omega
    · intro _
      rw [List.getElem?_append_right (by omega)]
      simp [hlen]


theorem bytes_drop_take (s : ZeekString) (a c : Int) (ha : 0 ≤ a) (hc : c ≤ s.n) :
    (s.bytes.drop a.toNat).take (c - a).toNat = (s.mem.drop a.toNat).take (c - a).toNat := by
  unfold bytes
  rw [List.drop_take, List.take_take]
  congr 1
  omega

theorem GetSubstring_some (s : ZeekString) (start len : Int)
    (h0 : 0 ≤ start) (hn : start ≤ s.n) (hl0 : 0 ≤ len) (hl : len ≤ s.n - start) :
    GetSubstring s start len = some (StringBytes (s.mem.drop start.toNat) len true) := by
  unfold GetSubstring
  rw [if_neg (by omega)]
  simp only []
  rw [if_neg (by omega)]

theorem GetSubstring_rest (s : ZeekString) (start len : Int)
    (h0 : 0 ≤ start) (hn : start ≤ s.n) (hl : len < 0 ∨ len > s.n - start) :
    GetSubstring s start len = some (StringBytes (s.mem.drop start.toNat) (s.n - start) true) := by
  unfold GetSubstring
  rw [if_neg (by omega)]
  simp only []
  rw [if_pos hl]

/-- Claim C2: on a buffer satisfying the invariant, `GetSubstring(start, len)`
is absent exactly when `start < 0` or `start > n`; otherwise it is a buffer
with a final NUL whose length is `L` and whose content is the `L` bytes at
offset `start`, where `L = len` when `0 <= len <= n - start` and
`L = n - start` otherwise. -/
theorem GetSubstring_spec (s : ZeekString) (start len : Int) (hs : Inv s) :
    (GetSubstring s start len = none ↔ (start < 0 ∨ start > s.n)) ∧
    (¬ (start < 0 ∨ start > s.n) →
      ∃ r L, GetSubstring s start len = some r ∧
        L = (if 0 ≤ len ∧ len ≤ s.n - start then len else s.n - start) ∧
        r.n = L ∧ r.final_NUL = true ∧ r.use_free_to_delete = false ∧
        r.bytes = (s.bytes.drop start.toNat).take L.toNat ∧
        (r.bytes.length : Int) = L ∧
        r.b = some (r.bytes ++ [0]) ∧ Inv r) := by
  have hinv := hs
  obtain ⟨hn0, -, hmem, -⟩ := hs
  have hmem2 : s.n ≤ (s.mem.length : Int) := by
    unfold nulCount at hmem; split at hmem <;> omega
  constructor
  · unfold GetSubstring
    split <;> simp_all
  · intro hr
    have h0 : 0 ≤ start := by omega
    have h1 : start ≤ s.n := by omega
    by_cases hl : 0 ≤ len ∧ len ≤ s.n - start
    · have hd : (len : Int) ≤ ((s.mem.drop start.toNat).length : Int) := by
        rw [List.length_drop]; omega
      obtain ⟨e1, e2, e3, e4, e5, e6, e7⟩ := StringBytes_spec (s.mem.drop start.toNat) len hl.1 hd
      refine ⟨_, len, GetSubstring_some s start len h0 h1 hl.1 hl.2, by rw [if_pos hl],
        e1, e2, e3, ?_, e6, ?_, e7⟩
      · rw [e5]
        have := bytes_drop_take s start (start + len) h0 (by omega)
        rw [show start + len - start = len by omega] at this
        exact this.symm
      · rw [e4, e5]
    · have hd : (s.n - start : Int) ≤ ((s.mem.drop start.toNat).length : Int) := by
        rw [List.length_drop]; omega
      obtain ⟨e1, e2, e3, e4, e5, e6, e7⟩ :=
        StringBytes_spec (s.mem.drop start.toNat) (s.n - start) (by omega) hd
      refine ⟨_, s.n - start, GetSubstring_rest s start len h0 h1 (by omega),
        by rw [if_neg hl], e1, e2, e3, ?_, e6, ?_, e7⟩
      · rw [e5]
        exact (bytes_drop_take s start s.n h0 (le_refl _)).symm
      · rw [e4, e5]


theorem segment_ok (s : ZeekString) (hs : Inv s) (a c : Int) (ha : 0 ≤ a) (hac : a ≤ c)
    (hc : c ≤ s.n) :
    (StringBytes (s.mem.drop a.toNat) (c - a) true).final_NUL = true ∧
    Inv (StringBytes (s.mem.drop a.toNat) (c - a) true) ∧
    (StringBytes (s.mem.drop a.toNat) (c - a) true).n = c - a ∧
    (StringBytes (s.mem.drop a.toNat) (c - a) true).bytes
      = (s.bytes.drop a.toNat).take (c - a).toNat := by
  obtain ⟨-, -, hmem, -⟩ := hs
  have hmem2 : s.n ≤ (s.mem.length : Int) := by
    unfold nulCount at hmem; split at hmem <;> omega
  have hd : (c - a : Int) ≤ ((s.mem.drop a.toNat).length : Int) := by
    rw [List.length_drop]; omega
  obtain ⟨e1, e2, -, -, e5, -, e7⟩ := StringBytes_spec (s.mem.drop a.toNat) (c - a) (by omega) hd
  exact ⟨e2, e7, e1, by rw [e5]; exact (bytes_drop_take s a c ha hc).symm⟩

theorem splitLoop_spec (s : ZeekString) (hs : Inv s) :
    ∀ D : List Int, D.Sorted (· < ·) → (∀ x ∈ D, 0 ≤ x ∧ x ≤ s.n) →
      (splitLoop s D).length = D.length ∧
      ∀ k, k < D.length → ∃ seg, (splitLoop s D)[k]? = some (some seg) ∧
        seg.final_NUL = true ∧ Inv seg ∧
        seg.n = D.getD (k + 1) s.n - D.getD k 0 ∧
        seg.bytes = (s.bytes.drop (D.getD k 0).toNat).take
          (D.getD (k + 1) s.n - D.getD k 0).toNat
  | [], _, _ => by simp [splitLoop]
  | [x], _, hb => by
    have hx := hb x (List.mem_singleton_self x)
    refine ⟨by simp [splitLoop], ?_⟩
    intro k hk
    have hk0 : k = 0 := by simpa using hk
    subst hk0
    refine ⟨_, ?_, segment_ok s hs x s.n hx.1 hx.2 (le_refl _)⟩
    simp only [splitLoop, List.getElem?_cons_zero]
    rw [GetSubstring_rest s x (-1) hx.1 hx.2 (by omega)]
  | x :: y :: rest, hsort, hb => by
    have hx := hb x (List.mem_cons_self _ _)
    have hy := hb y (List.mem_cons_of_mem _ (List.mem_cons_self _ _))
    have hxy : x < y := List.rel_of_sorted_cons hsort y (List.mem_cons_self _ _)
    have ih := splitLoop_spec s hs (y :: rest) (List.Sorted.of_cons hsort)
      (fun z hz => hb z (List.mem_cons_of_mem _ hz))
    refine ⟨by simp [splitLoop, ih.1], ?_⟩
    intro k hk
    cases k with
    | zero =>
      refine ⟨_, ?_, segment_ok s hs x y hx.1 (by omega) hy.2⟩
      simp only [splitLoop, List.getElem?_cons_zero]
      rw [GetSubstring_some s x (y - x) hx.1 hx.2 (by omega) (by omega)]
    | succ k =>
      have hk2 : k < (y :: rest).length := by simpa using hk
      obtain ⟨seg, h1, h2⟩ := ih.2 k hk2
      refine ⟨seg, ?_, ?_⟩
      · simpa [splitLoop] using h1
      · simpa using h2

theorem mem_idx (n : Int) (indices : List Int) (x : Int) :
    x ∈ sanitize n ((List.replicate (1 + indices.length) (0 : Int)).set 0 0 ++ indices)
      ↔ x = 0 ∨ (x ∈ indices ∧ 0 ≤ x ∧ x < n) := by
  have hrep : (List.replicate (1 + indices.length) (0 : Int)).set 0 0
      = List.replicate (1 + indices.length) 0 := by
    rw [Nat.add_comm]; rfl
  rw [hrep]
  unfold sanitize
  simp only [List.mem_map, List.mem_append, List.mem_replicate]
  constructor
  · rintro ⟨a, ha | ha, rfl⟩
    · left; rw [ha.2]; split <;> rfl
    · split
      · left; rfl
      · right; exact ⟨ha, by omega, by omega⟩
  · rintro (rfl | ⟨h1, h2, h3⟩)
    · exact ⟨0, Or.inl ⟨by omega, rfl⟩, by split <;> rfl⟩
    · exact ⟨x, Or.inr h1, by rw [if_neg (by omega)]⟩

/-- Claim C1: for a buffer satisfying the invariant and a non-empty index
list, `Split` returns a vector `segs` with one present, NUL-terminated segment
per element of `D`, where `D` is the strictly ascending list whose elements
are 0 and the given indices `i` with `0 <= i < n`; the content of segment `k`
is the bytes of the buffer from `D[k]` up to `D[k+1]`, and up to `n` for the
last segment. -/
theorem Split_segments (s : ZeekString) (indices : List Int) (hs : Inv s)
    (hne : indices ≠ []) :
    ∃ (D : List Int) (segs : List (Option ZeekString)), Split s indices = some segs ∧
      D.Sorted (· < ·) ∧
      (∀ x, x ∈ D ↔ x = 0 ∨ (x ∈ indices ∧ 0 ≤ x ∧ x < s.n)) ∧
      segs.length = D.length ∧
      ∀ k, k < D.length → ∃ seg, segs[k]? = some (some seg) ∧
        seg.final_NUL = true ∧ Inv seg ∧
        seg.n = D.getD (k + 1) s.n - D.getD k 0 ∧
        seg.bytes = (s.bytes.drop (D.getD k 0).toNat).take
          (D.getD (k + 1) s.n - D.getD k 0).toNat := by
  have hmemD : ∀ x, x ∈ unique ((sanitize s.n ((List.replicate (1 + indices.length)
      (0 : Int)).set 0 0 ++ indices)).insertionSort (· ≤ ·))
      ↔ x = 0 ∨ (x ∈ indices ∧ 0 ≤ x ∧ x < s.n) := by
    intro x
    rw [mem_unique, (List.perm_insertionSort _ _).mem_iff, mem_idx]
  have hsorted := sorted_unique _ (List.sorted_insertionSort (· ≤ ·)
    (sanitize s.n ((List.replicate (1 + indices.length) (0 : Int)).set 0 0 ++ indices)))
  have hbound : ∀ x ∈ unique ((sanitize s.n ((List.replicate (1 + indices.length)
      (0 : Int)).set 0 0 ++ indices)).insertionSort (· ≤ ·)), 0 ≤ x ∧ x ≤ s.n := by
    intro x hx
    have hn0 := hs.1
    rcases (hmemD x).mp hx with h | h <;> omega
  obtain ⟨hlen, hseg⟩ := splitLoop_spec s hs _ hsorted hbound
  refine ⟨_, _, ?_, hsorted, hmemD, hlen, hseg⟩
  unfold Split
  rw [if_neg (by simpa using hne)]

end zeek.ZeekString

namespace zeek

open ZeekString

/-! ## Adopt -/

/-- Claim C6: for an array of `len >= 1` bytes, `Adopt` sets `final_NUL`
exactly when the byte at index `len - 1` is zero, sets `n` to `len - 1` in
that case and to `len` otherwise, keeps the array itself as storage, and the
content is the first `n` bytes of the array. -/
theorem Adopt_spec (self : ZeekString) (bytes : List Byte) (len : Int)
    (h1 : 1 ≤ len) (hlen : (bytes.length : Int) = len) :
    ((ZeekString.Adopt self bytes len).final_NUL = true ↔ bytes[(len - 1).toNat]? = some 0) ∧
    (ZeekString.Adopt self bytes len).n
      = (if bytes[(len - 1).toNat]? = some 0 then len - 1 else len) ∧
    (ZeekString.Adopt self bytes len).b = some bytes ∧
    (ZeekString.Adopt self bytes len).bytes
      = bytes.take (ZeekString.Adopt self bytes len).n.toNat ∧
    ((ZeekString.Adopt self bytes len).bytes.length : Int)
      = (ZeekString.Adopt self bytes len).n := by
  have hb : (ZeekString.Adopt self bytes len).b = some bytes := rfl
  have hn : (ZeekString.Adopt self bytes len).n
      = (if bytes[(len - 1).toNat]? = some 0 then len - 1 else len) := by
    simp only [ZeekString.Adopt, ZeekString.Reset, ZeekString.mem, Option.getD_some,
      decide_eq_true_eq]
    by_cases h : bytes[(len - 1).toNat]? = some 0
    · rw [if_pos h, if_pos h]
    · rw [if_neg h, if_neg h]; omega
  refine ⟨?_, hn, hb, ?_, ?_⟩
  · simp [ZeekString.Adopt, ZeekString.Reset, ZeekString.mem]
  · simp only [ZeekString.bytes, ZeekString.mem, hb, Option.getD_some]
  · simp only [ZeekString.bytes, ZeekString.mem, hb, Option.getD_some, List.length_take]
    rw [hn]
    split <;> omega

/-! ## concatenate -/

theorem foldl_add_length {α : Type} (f : α → Int) (v : List α) (a : Int) :
    v.foldl (fun len x => len + f x) a = a + (v.map f).sum := by
  induction v generalizing a with
  | nil => simp
  | cons x v ih => simp only [List.foldl_cons, ih, List.map_cons, List.sum_cons]; omega

theorem foldl_append_data {α : Type} (g : α → List Byte) (v : List α) (d : List Byte) :
    v.foldl (fun data x => data ++ g x) d = d ++ (v.map g).flatten := by
  induction v generalizing d with
  | nil => simp
  | cons x v ih => simp only [List.foldl_cons, ih, List.map_cons, List.flatten_cons,
      List.append_assoc]

theorem flatten_length_sum {α : Type} (f : α → Int) (g : α → List Byte) (v : List α)
    (h : ∀ x ∈ v, ((g x).length : Int) = f x) :
    (((v.map g).flatten).length : Int) = (v.map f).sum := by
  induction v with
  | nil => simp
  | cons x v ih =>
    simp only [List.map_cons, List.flatten_cons, List.length_append, List.sum_cons,
      Nat.cast_add]
    rw [ih (fun y hy => h y (List.mem_cons_of_mem _ hy)), h x (List.mem_cons_self _ _)]

theorem bytes_length (s : ZeekString) (hs : s.Inv) : (s.bytes.length : Int) = s.n := by
  obtain ⟨h0, -, hmem, -⟩ := hs
  unfold ZeekString.nulCount at hmem
  unfold ZeekString.bytes
  rw [List.length_take]
  split at hmem <;> omega

theorem chunk_bytes_length (c : data_chunk_t) (hc : c.Valid) :
    (c.bytes.length : Int) = c.length := by
  obtain ⟨h0, h1⟩ := hc
  unfold data_chunk_t.bytes
  rw [List.length_take]
  omega

theorem concatenate_eq (v : List ZeekString) :
    concatenate v = ZeekString.StringAdopted true
      (some ((v.map ZeekString.bytes).flatten ++ [0])) (v.map (·.n)).sum := by
  unfold concatenate
  simp only []
  rw [foldl_add_length (fun s : ZeekString => s.n), foldl_append_data (fun s : ZeekString => s.mem.take s.n.toNat)]
  simp only [zero_add, List.nil_append]
  rfl

theorem concatenateChunks_eq (v : List data_chunk_t) :
    concatenateChunks v = ZeekString.StringAdopted true
      (some ((v.map data_chunk_t.bytes).flatten ++ [0])) (v.map (·.length)).sum := by
  unfold concatenateChunks
  simp only []
  rw [foldl_add_length (fun c : data_chunk_t => c.length),
    foldl_append_data (fun c : data_chunk_t => c.data.take c.length.toNat)]
  simp only [zero_add, List.nil_append]
  rfl

theorem adopted_spec (l : List Byte) (n : Int) (h : (l.length : Int) = n) :
    (ZeekString.StringAdopted true (some (l ++ [0])) n).bytes = l ∧
    (ZeekString.StringAdopted true (some (l ++ [0])) n).final_NUL = true ∧
    (ZeekString.StringAdopted true (some (l ++ [0])) n).mem[n.toNat]? = some 0 := by
  have hn : n.toNat = l.length := by omega
  refine ⟨?_, rfl, ?_⟩
  · simp [ZeekString.bytes, ZeekString.mem, ZeekString.StringAdopted, hn]
  · simp [ZeekString.mem, ZeekString.StringAdopted, hn]

theorem put_written (w : ZeekString.WorkBuf) (l : List Byte) (c : Byte) (hw : Written w l)
    (h : w.sp < w.s.length) :
    ∃ w2, ZeekString.put w c = some w2 ∧ Written w2 (l ++ [c]) ∧
      w2.s.length = w.s.length ∧ w2.sp = w.sp + 1 := by
  refine ⟨{ s := w.s.set w.sp (some c), sp := w.sp + 1 }, ?_, ⟨?_, ?_⟩, ?_, rfl⟩
  · simp [ZeekString.put, h]
  · simp [hw.1]
  · simp only [List.take_succ, List.set_take, List.map_append, List.map_cons, List.map_nil]
    rw [List.set_eq_of_length_le (by simp), hw.2]
    simp [h]
  · simp

theorem putAll_written (cs : List Byte) : ∀ (w : ZeekString.WorkBuf) (l : List Byte),
    Written w l → w.sp + cs.length ≤ w.s.length →
    ∃ w2, putAll w cs = some w2 ∧ Written w2 (l ++ cs) ∧ w2.s.length = w.s.length ∧
      w2.sp = w.sp + cs.length := by
  induction cs with
  | nil =>
    intro w l hw _
    exact ⟨w, rfl, by simpa using hw, rfl, rfl⟩
  | cons c cs ih =>
    intro w l hw h
    simp only [List.length_cons] at h
    obtain ⟨w1, e1, hw1, hl1, hs1⟩ := put_written w l c hw (by omega)
    obtain ⟨w2, e2, hw2, hl2, hs2⟩ := ih w1 (l ++ [c]) hw1 (by omega)
    refine ⟨w2, ?_, by simpa using hw2, by omega, by simp only [List.length_cons]; omega⟩
    simp [putAll, e1, e2]

theorem hexDigit_eq (d : Nat) (h : d < 16) : hexDigit d = specHexDigit d := by
  interval_cases d <;> rfl

theorem renderByte_eq (format : ZeekString.Format) (w : ZeekString.WorkBuf) (c : Byte) :
    ZeekString.renderByte format w c = putAll w (specEncodeByte format c) := by
  have hc : (c < 32 ∨ c > 126) ↔ (c.val < 0x20 ∨ c.val > 0x7E) := Iff.rfl
  unfold ZeekString.renderByte specEncodeByte
  by_cases h1 : c = 92 ∧ format.esc = true
  · have h1' : format.esc = true ∧ c = 92 := ⟨h1.2, h1.1⟩
    rw [if_pos h1, if_pos h1']
    simp [putAll, bind]
  · have h1' : ¬ (format.esc = true ∧ c = 92) := fun h => h1 ⟨h.2, h.1⟩
    rw [if_neg h1, if_neg h1']
    by_cases h2 : (c = 39 ∨ c = 34) ∧ format.quot = true
    · have h2' : format.quot = true ∧ (c = 39 ∨ c = 34) := ⟨h2.2, h2.1⟩
      rw [if_pos h2, if_pos h2']
      simp [putAll, bind]
    · have h2' : ¬ (format.quot = true ∧ (c = 39 ∨ c = 34)) := fun h => h2 ⟨h.2, h.1⟩
      rw [if_neg h2, if_neg h2']
      by_cases h3 : (c < 32 ∨ c > 126) ∧ format.hex = true
      · have h3' : format.hex = true ∧ (c.val < 0x20 ∨ c.val > 0x7E) := ⟨h3.2, hc.mp h3.1⟩
        rw [if_pos h3, if_pos h3', ← hexDigit_eq _ (show c.val / 16 < 16 by omega),
          ← hexDigit_eq _ (show c.val % 16 < 16 by omega)]
        simp [putAll, bind, ZeekString.sprintf_02x]
      · have h3' : ¬ (format.hex = true ∧ (c.val < 0x20 ∨ c.val > 0x7E)) :=
          fun h => h3 ⟨hc.mpr h.2, h.1⟩
        rw [if_neg h3, if_neg h3']
        by_cases h4 : (c < 32 ∨ c > 126) ∧ format.dot = true
        · have h4' : format.dot = true ∧ (c.val < 0x20 ∨ c.val > 0x7E) := ⟨h4.2, hc.mp h4.1⟩
          rw [if_pos h4, if_pos h4']
          simp [putAll]
        · have h4' : ¬ (format.dot = true ∧ (c.val < 0x20 ∨ c.val > 0x7E)) :=
            fun h => h4 ⟨hc.mpr h.2, h.1⟩
          rw [if_neg h4, if_neg h4']
          simp [putAll]

theorem specEncodeByte_length (format : ZeekString.Format) (c : Byte) :
    1 ≤ (specEncodeByte format c).length ∧ (specEncodeByte format c).length ≤ 4 := by
  unfold specEncodeByte
  split_ifs <;> simp

theorem specEscape_length (format : ZeekString.Format) (l : List Byte) :
    (specEscape format l).length ≤ 4 * l.length := by
  induction l with
  | nil => simp [specEscape]
  | cons c l ih =>
    have := (specEncodeByte_length format c).2
    simp only [specEscape, List.map_cons, List.flatten_cons, List.length_append,
      List.length_cons] at ih ⊢
    omega

theorem renderLoop_written (format : ZeekString.Format) (bs : List Byte) :
    ∀ (w : ZeekString.WorkBuf) (l : List Byte),
    Written w l → w.sp + 4 * bs.length ≤ w.s.length →
    ∃ w2, ZeekString.renderLoop format bs w = some w2 ∧
      Written w2 (l ++ specEscape format bs) ∧ w2.s.length = w.s.length ∧
      w2.sp = w.sp + (specEscape format bs).length := by
  induction bs with
  | nil =>
    intro w l hw _
    exact ⟨w, rfl, by simpa [specEscape] using hw, rfl, by simp [specEscape]⟩
  | cons c bs ih =>
    intro w l hw h
    simp only [List.length_cons] at h
    have hlen := (specEncodeByte_length format c).2
    obtain ⟨w1, e1, hw1, hl1, hs1⟩ :=
      putAll_written (specEncodeByte format c) w l hw (by omega)
    obtain ⟨w2, e2, hw2, hl2, hs2⟩ := ih w1 _ hw1 (by omega)
    refine ⟨w2, ?_, ?_, by omega, ?_⟩
    · simp [ZeekString.renderLoop, renderByte_eq, e1, e2]
    · simpa [specEscape] using hw2
    · simp only [specEscape, List.map_cons, List.flatten_cons, List.length_append] at hs2 ⊢
      omega

theorem readOut_map_some (l : List Byte) : ZeekString.readOut (l.map some) = some l := by
  induction l with
  | nil => rfl
  | cons c l ih => simp [ZeekString.readOut, ih]


theorem renderLoop_run (s : ZeekString) (format : ZeekString.Format) (hs : s.Inv) :
    ∃ w w2, ZeekString.renderLoop format s.bytes
        { s := List.replicate (s.n * 4 + 1).toNat none, sp := 0 } = some w ∧
      w.s.length = (s.n * 4 + 1).toNat ∧
      w.sp = (specEscape format s.bytes).length ∧
      ZeekString.put w 0 = some w2 ∧
      w2.s.length = (s.n * 4 + 1).toNat ∧
      w2.sp = (specEscape format s.bytes).length + 1 ∧
      ZeekString.readOut (w2.s.take w2.sp) = some (specEscape format s.bytes ++ [0]) := by
  have hlen := bytes_length s hs
  have hn0 := hs.1
  have hesc := specEscape_length format s.bytes
  have h0 : Written { s := List.replicate (s.n * 4 + 1).toNat none, sp := 0 } [] := by
    simp [Written]
  obtain ⟨w, e1, hw, hl, hsp⟩ := renderLoop_written format s.bytes _ [] h0
    (by simp only [List.length_replicate]; omega)
  simp only [List.length_replicate, Nat.zero_add, List.nil_append] at hl hsp hw
  obtain ⟨w2, e2, hw2, hl2, hsp2⟩ := put_written w _ 0 hw (by omega)
  refine ⟨w, w2, e1, hl, hsp, e2, by omega, by omega, ?_⟩
  rw [hw2.2, readOut_map_some]

theorem Render_eq (s : ZeekString) (format : ZeekString.Format) (hs : s.Inv) :
    s.Render format =
      if format.ser = true then
        if ((decimal (specEscape format s.bytes).length ++ [32]).take
              ((specEscape format s.bytes).length + 16)).length
            + ((specEscape format s.bytes).length + 1)
            ≤ (specEscape format s.bytes).length + 1 + 16 then
          some ((decimal (specEscape format s.bytes).length ++ [32]).take
              ((specEscape format s.bytes).length + 16) ++ (specEscape format s.bytes ++ [0]))
        else none
      else some (specEscape format s.bytes ++ [0]) := by
  obtain ⟨w, w2, e1, -, -, e2, -, hsp2, e3⟩ := renderLoop_run s format hs
  rw [hsp2] at e3
  have harith : (specEscape format s.bytes).length + 1 + 16 - 1
      = (specEscape format s.bytes).length + 16 := by omega
  unfold ZeekString.Render
  simp only [e1, e2, e3, hsp2, bind, Option.bind, Nat.add_sub_cancel, harith]


/-! ## The text of `"%u"` -/

theorem utoa_length : ∀ (fuel v : Nat) (acc : List Byte), v < fuel →
    (utoa fuel v acc).length = acc.length + Nat.log 10 v + 1 := by
  intro fuel
  induction fuel with
  | zero => intro v acc h; omega
  | succ fuel ih =>
    intro v acc h
    unfold utoa
    split
    · rename_i hv
      rw [Nat.log_of_lt hv]; simp
    · rename_i hv
      have hpos : 0 < Nat.log 10 v := Nat.log_pos (by omega) (by omega)
      rw [ih (v / 10) _ (by omega), Nat.log_div_base]
      simp only [List.length_cons]
      omega

theorem decimal_length (v : Nat) : (decimal v).length = Nat.log 10 v + 1 := by
  unfold decimal
  rw [utoa_length (v + 1) v [] (by omega)]
  simp

theorem decimal_length_mono (v w : Nat) (h : v ≤ w) :
    (decimal v).length ≤ (decimal w).length := by
  rw [decimal_length, decimal_length]
  have := Nat.log_mono_right (b := 10) h
  omega

theorem utoa_value : ∀ (fuel v : Nat) (acc : List Byte), v < fuel →
    (utoa fuel v acc).foldl (fun a d => 10 * a + (d.val - 48)) 0
      = acc.foldl (fun a d => 10 * a + (d.val - 48)) v := by
  intro fuel
  induction fuel with
  | zero => intro v acc h; omega
  | succ fuel ih =>
    intro v acc h
    unfold utoa
    split
    · rename_i hv
      simp only [List.foldl_cons]
      congr 1
      show 10 * 0 + ((48 + v) % 256 - 48) = v
      omega
    · rename_i hv
      rw [ih (v / 10) _ (by omega)]
      simp only [List.foldl_cons]
      congr 1
      show 10 * (v / 10) + ((48 + v % 10) % 256 - 48) = v
      omega

theorem decimalValue_decimal (v : Nat) : decimalValue (decimal v) = v := by
  unfold decimalValue decimal
  rw [utoa_value (v + 1) v [] (by omega)]
  rfl

theorem utoa_digits : ∀ (fuel v : Nat) (acc : List Byte),
    (∀ d ∈ acc, 48 ≤ d.val ∧ d.val ≤ 57) →
    ∀ d ∈ utoa fuel v acc, 48 ≤ d.val ∧ d.val ≤ 57 := by
  intro fuel
  induction fuel with
  | zero => intro v acc h; simpa [utoa] using h
  | succ fuel ih =>
    intro v acc h
    unfold utoa
    split
    · rename_i hv
      intro d hd
      rcases List.mem_cons.mp hd with rfl | hd
      · show 48 ≤ (48 + v) % 256 ∧ (48 + v) % 256 ≤ 57
        omega
      · exact h d hd
    · apply ih
      intro d hd
      rcases List.mem_cons.mp hd with rfl | hd
      · show 48 ≤ (48 + v % 10) % 256 ∧ (48 + v % 10) % 256 ≤ 57
        omega
      · exact h d hd

theorem decimal_digits (v : Nat) : ∀ d ∈ decimal v, 48 ≤ d.val ∧ d.val ≤ 57 :=
  utoa_digits (v + 1) v [] (by simp)

theorem decimal_ne_nil (v : Nat) : decimal v ≠ [] := by
  intro h
  have := decimal_length v
  rw [h] at this
  simp at this


/-! ## Render: results -/

theorem specEscape_ser (format : Format) (b : Bool) (l : List Byte) :
    specEscape { format with ser := b } l = specEscape format l := rfl

theorem Render_plain (s : ZeekString) (format : Format) (hs : s.Inv)
    (hser : format.ser = false) :
    s.Render format = some (specEscape format s.bytes ++ [0]) := by
  rw [Render_eq s format hs, if_neg (by simp [hser])]

theorem Render_ser (s : ZeekString) (format : Format) (hs : s.Inv)
    (hser : format.ser = true)
    (hd : (decimal (specEscape format s.bytes).length).length ≤ 15) :
    s.Render format = some (decimal (specEscape format s.bytes).length ++ [32]
      ++ (specEscape format s.bytes ++ [0])) := by
  rw [Render_eq s format hs, if_pos hser]
  have htake : (decimal (specEscape format s.bytes).length ++ [32]).take
      ((specEscape format s.bytes).length + 16)
      = decimal (specEscape format s.bytes).length ++ [32] := by
    apply List.take_of_length_le
    simp only [List.length_append, List.length_singleton]
    omega
  rw [htake, if_pos (by simp only [List.length_append, List.length_singleton]; omega)]

theorem Render_ser_inv (s : ZeekString) (format : Format) (hs : s.Inv)
    (hser : format.ser = true) (out : List Byte) (h : s.Render format = some out) :
    out = decimal (specEscape format s.bytes).length ++ [32]
      ++ (specEscape format s.bytes ++ [0]) := by
  rw [Render_eq s format hs, if_pos hser] at h
  split at h
  · rename_i hle
    have htake : (decimal (specEscape format s.bytes).length ++ [32]).take
        ((specEscape format s.bytes).length + 16)
        = decimal (specEscape format s.bytes).length ++ [32] := by
      apply List.take_of_length_le
      rw [List.length_take] at hle
      by_cases h0 : (specEscape format s.bytes).length = 0
      · rw [h0]; decide
      · omega
    rw [htake] at h
    exact (Option.some.inj h).symm
  · exact absurd h (by simp)

theorem decimal_short (s : ZeekString) (format : Format) (hs : s.Inv) (hn : s.n ≤ INT_MAX) :
    (decimal (specEscape format s.bytes).length).length ≤ 15 := by
  have h1 := specEscape_length format s.bytes
  have h2 := bytes_length s hs
  rw [decimal_length]
  by_cases h0 : (specEscape format s.bytes).length = 0
  · rw [h0]; simp
  · have : Nat.log 10 (specEscape format s.bytes).length < 15 := by
      apply Nat.log_lt_of_lt_pow h0
      unfold INT_MAX at hn
      omega
    omega

theorem Render_some (s : ZeekString) (format : Format) (hs : s.Inv) (hn : s.n ≤ INT_MAX) :
    ∃ out, s.Render format = some out := by
  by_cases hser : format.ser = true
  · exact ⟨_, Render_ser s format hs hser (decimal_short s format hs hn)⟩
  · exact ⟨_, Render_plain s format hs (by simpa using hser)⟩

theorem putAll_sp (cs : List Byte) : ∀ (w w2 : WorkBuf), putAll w cs = some w2 →
    w2.sp = w.sp + cs.length ∧ w2.s.length = w.s.length := by
  induction cs with
  | nil =>
    intro w w2 h
    simp only [putAll, Option.some.injEq] at h
    subst h; simp
  | cons c cs ih =>
    intro w w2 h
    unfold putAll at h
    unfold put at h
    split at h
    · simp only [Option.some_bind] at h
      have := ih _ _ h
      simp only [List.length_set, List.length_cons] at this ⊢
      omega
    · simp at h

theorem workingBufferSize_eq (n : Int) (h0 : 0 ≤ n) (hn : n * 4 + 1 ≤ INT_MAX) :
    workingBufferSize n = n * 4 + 1 := by
  unfold INT_MAX at hn
  unfold workingBufferSize intWrap
  omega

theorem allocWorkingBuffer_eq (n : Int) (h0 : 0 ≤ n) (hn : n * 4 + 1 ≤ INT_MAX) :
    allocWorkingBuffer n = some (List.replicate (n * 4 + 1).toNat none) := by
  unfold allocWorkingBuffer
  rw [workingBufferSize_eq n h0 hn, if_neg (by omega)]

/-- While `n*4 + 1` does not overflow `int`, the buffer that `Render`
allocates has `4 * n + 1` bytes, the escaping loop completes on it with every
write inside, having written at most `4 * n` bytes, and the terminating NUL is
written inside it as well; one pass of the loop moves the write pointer by at
least one and at most four bytes. -/
theorem renderLoop_in_bounds_of_no_overflow (s : ZeekString) (format : Format) (hs : s.Inv)
    (hn : s.n * 4 + 1 ≤ INT_MAX) :
    (∀ (w w2 : WorkBuf) (c : Byte), renderByte format w c = some w2 →
      w.sp < w2.sp ∧ w2.sp ≤ w.sp + 4 ∧ w2.s.length = w.s.length) ∧
    (∃ buf w w2, allocWorkingBuffer s.n = some buf ∧
      (buf.length : Int) = 4 * s.n + 1 ∧
      renderLoop format s.bytes { s := buf, sp := 0 } = some w ∧
      w.s.length = buf.length ∧ (w.sp : Int) ≤ 4 * s.n ∧
      put w 0 = some w2 ∧
      w2.s.length = buf.length ∧ (w2.sp : Int) ≤ 4 * s.n + 1) := by
  constructor
  · intro w w2 c h
    rw [renderByte_eq] at h
    have h1 := putAll_sp _ _ _ h
    have h2 := specEncodeByte_length format c
    omega
  · obtain ⟨w, w2, e1, hl, hsp, e2, hl2, hsp2, -⟩ := renderLoop_run s format hs
    have h1 := specEscape_length format s.bytes
    have h2 := bytes_length s hs
    have h0 := hs.1
    refine ⟨_, w, w2, allocWorkingBuffer_eq s.n hs.1 hn, ?_, e1, ?_, by omega, e2, ?_,
      by omega⟩
    · rw [List.length_replicate]; omega
    · rw [List.length_replicate]; exact hl
    · rw [List.length_replicate]; exact hl2

theorem putAll_le (cs : List Byte) : ∀ (w w2 : WorkBuf), putAll w cs = some w2 →
    w.sp ≤ w.s.length → w2.sp ≤ w2.s.length := by
  induction cs with
  | nil =>
    intro w w2 h hw
    simp only [putAll, Option.some.injEq] at h
    subst h; exact hw
  | cons c cs ih =>
    intro w w2 h _
    unfold putAll at h
    unfold put at h
    split at h
    · rename_i hlt
      simp only [Option.some_bind] at h
      exact ih _ _ h (by simp only [List.length_set]; omega)
    · simp at h

theorem renderLoop_progress (format : Format) (bs : List Byte) :
    ∀ (w w2 : WorkBuf), renderLoop format bs w = some w2 → w.sp ≤ w.s.length →
      w.sp + bs.length ≤ w2.sp ∧ w2.sp ≤ w2.s.length ∧ w2.s.length = w.s.length := by
  induction bs with
  | nil =>
    intro w w2 h hw
    simp only [renderLoop, Option.some.injEq] at h
    subst h
    exact ⟨by simp, hw, rfl⟩
  | cons c bs ih =>
    intro w w2 h hw
    unfold renderLoop at h
    cases h1 : renderByte format w c with
    | none => rw [h1] at h; simp at h
    | some w1 =>
      rw [h1] at h
      simp only [Option.some_bind] at h
      rw [renderByte_eq] at h1
      have e1 := putAll_sp _ _ _ h1
      have e2 := putAll_le _ _ _ h1 hw
      have e3 := (specEncodeByte_length format c).1
      obtain ⟨i1, i2, i3⟩ := ih w1 w2 h e2
      simp only [List.length_cons]
      omega

theorem renderLoop_overflows (format : Format) (bs : List Byte) (buf : List (Option Byte))
    (h : buf.length < bs.length) : renderLoop format bs { s := buf, sp := 0 } = none := by
  cases hr : renderLoop format bs { s := buf, sp := 0 } with
  | none => rfl
  | some w2 =>
    obtain ⟨i1, i2, i3⟩ := renderLoop_progress format bs _ w2 hr (Nat.zero_le _)
    simp only at i1 i3
    omega

theorem memchr_eq_some (c : Byte) : ∀ (m : List Byte) (k i : Nat),
    memchr m c k = some i ↔ (i < k ∧ m[i]? = some c ∧ c ∉ m.take i) := by
  intro m
  induction m with
  | nil =>
    intro k i
    cases k <;> simp [memchr]
  | cons x m ih =>
    intro k i
    cases k with
    | zero => simp [memchr]
    | succ k =>
      unfold memchr
      by_cases hx : x = c
      · rw [if_pos hx]
        cases i with
        | zero => simp [hx]
        | succ i => simp [hx]
      · rw [if_neg hx]
        cases i with
        | zero =>
          simp only [Option.map_eq_some', List.getElem?_cons_zero, Option.some.injEq]
          constructor
          · rintro ⟨a, -, ha⟩; omega
          · rintro ⟨-, h, -⟩; exact absurd h hx
        | succ i =>
          have hx2 : ¬ c = x := fun h => hx h.symm
          simp only [Option.map_eq_some', Nat.add_right_cancel_iff, exists_eq_right, ih,
            List.getElem?_cons_succ, List.take_succ_cons, List.mem_cons, not_or,
            Nat.add_lt_add_iff_right, hx2, not_false_eq_true, true_and]

theorem strlen_eq : ∀ (m : List Byte) (i : Nat), m[i]? = some 0 → (0 : Byte) ∉ m.take i →
    strlen m = i := by
  intro m
  induction m with
  | nil => intro i h; simp at h
  | cons x m ih =>
    intro i h1 h2
    cases i with
    | zero =>
      simp only [List.getElem?_cons_zero, Option.some.injEq] at h1
      simp [strlen, h1]
    | succ i =>
      simp only [List.take_succ_cons, List.mem_cons, not_or] at h2
      simp only [List.getElem?_cons_succ] at h1
      have hx : ¬ x = 0 := fun h => h2.1 h.symm
      simp [strlen, hx, ih i h1 h2.2]

theorem memchr_terminator (s : ZeekString) (hs : s.Inv) :
    memchr s.mem 0 (s.n + s.nulCount).toNat = some s.n.toNat
      ↔ (s.final_NUL = true ∧ (0 : Byte) ∉ s.bytes) := by
  obtain ⟨h0, -, -, hnul⟩ := hs
  rw [memchr_eq_some]
  unfold nulCount bytes
  constructor
  · rintro ⟨h1, -, h3⟩
    refine ⟨?_, h3⟩
    by_contra hf
    rw [if_neg hf] at h1
    omega
  · rintro ⟨h1, h2⟩
    refine ⟨?_, hnul h1, h2⟩
    rw [if_pos h1]
    omega

theorem strlen_append (s rest : List Byte) (h : (0 : Byte) ∉ s) :
    strlen (s ++ 0 :: rest) = s.length := by
  apply strlen_eq
  · rw [List.getElem?_append_right (le_refl _)]
    simp
  · simpa using h

theorem SetCStr_eq (self : ZeekString) (s rest : List Byte) (h : (0 : Byte) ∉ s) :
    SetCStr self (some (s ++ 0 :: rest)) = lit s := by
  unfold SetCStr lit
  simp only [Reset, strlen_append s rest h]
  have : ((s.length : Int) + 1).toNat = s.length + 1 := by omega
  rw [this]
  have h2 : (s ++ 0 :: rest).take (s.length + 1) = s ++ [0] := by
    rw [List.take_append_eq_append_take]
    simp
  rw [h2]

theorem lit_Inv (s : List Byte) : (lit s).Inv := by
  refine ⟨by simp [lit], by simp [lit], ?_, ?_⟩
  · simp [lit, nulCount, mem]
  · intro _
    simp [lit, mem]

theorem unhex_hexDigit (d : Nat) (h : d < 16) : unhexDigit (hexDigit d) = d := by
  interval_cases d <;> rfl

theorem unhex_sprintf (c : Byte) :
    (Fin.ofNat (16 * unhexDigit (hexDigit (c.val / 16)) + unhexDigit (hexDigit (c.val % 16)))
      : Byte) = c := by
  rw [unhex_hexDigit _ (by omega), unhex_hexDigit _ (by omega)]
  apply Fin.ext
  show (16 * (c.val / 16) + c.val % 16) % 256 = c.val
  omega

theorem specEscape_cons (format : Format) (c : Byte) (l : List Byte) :
    specEscape format (c :: l) = specEncodeByte format c ++ specEscape format l := rfl

theorem specEscape_head (format : Format) (hq : format.quot = true) :
    ∀ (l : List Byte) (d : Byte) (rest : List Byte),
      specEscape format l = d :: rest → ¬ (d = 39 ∨ d = 34) := by
  intro l d rest h
  cases l with
  | nil => simp [specEscape] at h
  | cons c l =>
    rw [specEscape_cons] at h
    unfold specEncodeByte at h
    split_ifs at h with h1 h2 h3 h4
    all_goals simp only [List.cons_append, List.nil_append, List.cons.injEq] at h
    all_goals obtain ⟨h, -⟩ := h
    all_goals subst h
    · decide
    · decide
    · decide
    · decide
    · intro hc
      exact h2 ⟨hq, hc⟩

theorem unescape_encode (format : Format) (hg : format.Lossless) (c : Byte) (l : List Byte) :
    unescapeByte format (specEncodeByte format c ++ specEscape format l)
      = some (c, specEscape format l) := by
  obtain ⟨hdot, hhex⟩ := hg
  unfold specEncodeByte
  split_ifs with h1 h2 h3 h4
  · simp [unescapeByte, h1.1, h1.2]
  · have hc : ¬ c = 92 := by rcases h2.2 with h | h <;> (rw [h]; decide)
    simp [unescapeByte, hc, h2.1, h2.2]
  · have e1 : ¬ ((120 : Byte) = 92 ∧ format.esc = true) := fun h => absurd h.1 (by decide)
    have e2 : ¬ (((120 : Byte) = 39 ∨ (120 : Byte) = 34) ∧ format.quot = true) :=
      fun h => by rcases h.1 with h | h <;> exact absurd h (by decide)
    rw [← hexDigit_eq _ (show c.val / 16 < 16 by omega),
      ← hexDigit_eq _ (show c.val % 16 < 16 by omega)]
    simp only [List.cons_append, List.nil_append, unescapeByte, if_true]
    rw [if_neg e1, if_neg e2, if_pos ⟨trivial, h3.1⟩, unhex_sprintf]
  · exact absurd (hdot h4.1) (fun h => h3 ⟨h, h4.2⟩)
  · by_cases hc : c = 92
    · subst hc
      have hesc : ¬ format.esc = true := fun h => h1 ⟨h, rfl⟩
      have hhx : ¬ format.hex = true := fun h => hesc (hhex h)
      cases hl : specEscape format l with
      | nil => simp [unescapeByte]
      | cons d rest =>
        have hq : ¬ ((d = 39 ∨ d = 34) ∧ format.quot = true) := by
          rintro ⟨hd, hq⟩
          exact specEscape_head format hq l d rest hl hd
        simp only [List.cons_append, List.nil_append, unescapeByte, if_true]
        rw [if_neg (fun h => hesc h.2), if_neg hq, if_neg (fun h => hhx h.2)]
    · simp [unescapeByte, hc]

theorem specEscape_injective (format : Format) (hg : format.Lossless) :
    ∀ a b : List Byte, specEscape format a = specEscape format b → a = b := by
  intro a
  induction a with
  | nil =>
    intro b h
    cases b with
    | nil => rfl
    | cons y bs =>
      have h1 := (specEncodeByte_length format y).1
      have h2 := congrArg List.length h
      simp only [specEscape_cons, List.length_append] at h2
      simp only [specEscape, List.map_nil, List.flatten_nil, List.length_nil] at h2
      omega
  | cons x as ih =>
    intro b h
    cases b with
    | nil =>
      have h1 := (specEncodeByte_length format x).1
      have h2 := congrArg List.length h
      simp only [specEscape_cons, List.length_append] at h2
      simp only [specEscape, List.map_nil, List.flatten_nil, List.length_nil] at h2
      omega
    | cons y bs =>
      have h3 := congrArg (unescapeByte format) h
      rw [specEscape_cons, specEscape_cons, unescape_encode format hg,
        unescape_encode format hg] at h3
      simp only [Option.some.injEq, Prod.mk.injEq] at h3
      rw [h3.1, ih bs h3.2]

theorem Render_injective (format : Format) (hg : format.Lossless) (a b : ZeekString)
    (ha : a.Inv) (hb : b.Inv) (han : a.n ≤ INT_MAX) (hbn : b.n ≤ INT_MAX)
    (h : a.Render format = b.Render format) : a.bytes = b.bytes := by
  apply specEscape_injective format hg
  by_cases hser : format.ser = true
  · rw [Render_ser a format ha hser (decimal_short a format ha han),
      Render_ser b format hb hser (decimal_short b format hb hbn)] at h
    have h := Option.some.inj h
    have hlen := congrArg List.length h
    simp only [List.length_append, List.length_singleton] at hlen
    have hL : (specEscape format a.bytes).length = (specEscape format b.bytes).length := by
      rcases Nat.lt_trichotomy (specEscape format a.bytes).length
        (specEscape format b.bytes).length with hlt | heq | hgt
      · have := decimal_length_mono _ _ (Nat.le_of_lt hlt)
        omega
      · exact heq
      · have := decimal_length_mono _ _ (Nat.le_of_lt hgt)
        omega
    rw [hL] at h
    have h2 := List.append_cancel_left h
    exact List.append_cancel_right h2
  · have hser : format.ser = false := by simpa using hser
    rw [Render_plain a format ha hser, Render_plain b format hb hser] at h
    exact List.append_cancel_right (Option.some.inj h)


/-- The statement of claim C1 at the content `abcdef` and the indices 2 and 4,
where the segments are `ab`, `cd` and `ef`. -/
theorem Split_segments_witness :
    (lit [97, 98, 99, 100, 101, 102]).Inv ∧ ([2, 4] : List Int) ≠ [] ∧
    (lit [97, 98, 99, 100, 101, 102]).Split [2, 4]
      = some [some (lit [97, 98]), some (lit [99, 100]), some (lit [101, 102])] ∧
    ∃ (D : List Int) (segs : List (Option ZeekString)),
      (lit [97, 98, 99, 100, 101, 102]).Split [2, 4] = some segs ∧
      D.Sorted (· < ·) ∧
      (∀ x, x ∈ D ↔ x = 0 ∨ (x ∈ ([2, 4] : List Int) ∧ 0 ≤ x ∧
        x < (lit [97, 98, 99, 100, 101, 102]).n)) ∧
      segs.length = D.length ∧
      ∀ k, k < D.length → ∃ seg, segs[k]? = some (some seg) ∧
        seg.final_NUL = true ∧ seg.Inv ∧
        seg.n = D.getD (k + 1) (lit [97, 98, 99, 100, 101, 102]).n - D.getD k 0 ∧
        seg.bytes = ((lit [97, 98, 99, 100, 101, 102]).bytes.drop (D.getD k 0).toNat).take
          (D.getD (k + 1) (lit [97, 98, 99, 100, 101, 102]).n - D.getD k 0).toNat :=
  ⟨by decide, by decide, by decide,
    Split_segments (lit [97, 98, 99, 100, 101, 102]) [2, 4] (by decide) (by decide)⟩

/-- The statement of claim C2 at the content `hello`: the substring at 1 of
length 2 is `el`, and the substring at 10 is absent. -/
theorem GetSubstring_spec_witness :
    (lit [104, 101, 108, 108, 111]).Inv ∧
    (lit [104, 101, 108, 108, 111]).GetSubstring 1 2 = some (lit [101, 108]) ∧
    (lit [104, 101, 108, 108, 111]).GetSubstring 10 1 = none ∧
    (((lit [104, 101, 108, 108, 111]).GetSubstring 1 2 = none
        ↔ ((1 : Int) < 0 ∨ 1 > (lit [104, 101, 108, 108, 111]).n)) ∧
      (¬ ((1 : Int) < 0 ∨ 1 > (lit [104, 101, 108, 108, 111]).n) →
        ∃ r L, (lit [104, 101, 108, 108, 111]).GetSubstring 1 2 = some r ∧
          L = (if 0 ≤ (2 : Int) ∧ 2 ≤ (lit [104, 101, 108, 108, 111]).n - 1 then 2
            else (lit [104, 101, 108, 108, 111]).n - 1) ∧
          r.n = L ∧ r.final_NUL = true ∧ r.use_free_to_delete = false ∧
          r.bytes = ((lit [104, 101, 108, 108, 111]).bytes.drop (1 : Int).toNat).take L.toNat ∧
          (r.bytes.length : Int) = L ∧
          r.b = some (r.bytes ++ [0]) ∧ r.Inv)) :=
  ⟨by decide, by decide, by decide,
    GetSubstring_spec (lit [104, 101, 108, 108, 111]) 1 2 (by decide)⟩

/-- The statement of claim C6 at the array `a`, `b`, NUL with `len = 3`; the
array `a`, `b`, `c` keeps the length 3 and has no final NUL. -/
theorem Adopt_spec_witness :
    (1 : Int) ≤ 3 ∧ ((([97, 98, 0] : List Byte).length : Nat) : Int) = 3 ∧
    (Adopt ZeekString.String [97, 98, 0] 3).n = 2 ∧
    (Adopt ZeekString.String [97, 98, 0] 3).final_NUL = true ∧
    (Adopt ZeekString.String [97, 98, 99] 3).n = 3 ∧
    (Adopt ZeekString.String [97, 98, 99] 3).final_NUL = false ∧
    (((Adopt ZeekString.String [97, 98, 0] 3).final_NUL = true
        ↔ ([97, 98, 0] : List Byte)[((3 : Int) - 1).toNat]? = some 0) ∧
      (Adopt ZeekString.String [97, 98, 0] 3).n
        = (if ([97, 98, 0] : List Byte)[((3 : Int) - 1).toNat]? = some 0 then 3 - 1 else 3) ∧
      (Adopt ZeekString.String [97, 98, 0] 3).b = some [97, 98, 0] ∧
      (Adopt ZeekString.String [97, 98, 0] 3).bytes
        = ([97, 98, 0] : List Byte).take (Adopt ZeekString.String [97, 98, 0] 3).n.toNat ∧
      ((Adopt ZeekString.String [97, 98, 0] 3).bytes.length : Int)
        = (Adopt ZeekString.String [97, 98, 0] 3).n) :=
  ⟨by decide, by decide, by decide, by decide, by decide, by decide,
    Adopt_spec ZeekString.String [97, 98, 0] 3 (by decide) (by decide)⟩

/-- The bound on the writes of the escaping loop at the bytes 0x00 and 0xc8
under ESC_HEX: eight of the nine bytes of the working buffer are written by
the loop. -/
theorem renderLoop_in_bounds_of_no_overflow_witness :
    (lit [0, 200]).Inv ∧ (lit [0, 200]).n * 4 + 1 ≤ INT_MAX ∧
    allocWorkingBuffer (lit [0, 200]).n = some (List.replicate 9 none) ∧
    renderLoop fmtHex (lit [0, 200]).bytes { s := List.replicate 9 none, sp := 0 }
      = some { s := [some 92, some 120, some 48, some 48, some 92, some 120, some 99,
          some 56, none], sp := 8 } ∧
    ((∀ (w w2 : WorkBuf) (c : Byte), renderByte fmtHex w c = some w2 →
        w.sp < w2.sp ∧ w2.sp ≤ w.sp + 4 ∧ w2.s.length = w.s.length) ∧
      (∃ buf w w2, allocWorkingBuffer (lit [0, 200]).n = some buf ∧
        (buf.length : Int) = 4 * (lit [0, 200]).n + 1 ∧
        renderLoop fmtHex (lit [0, 200]).bytes { s := buf, sp := 0 } = some w ∧
        w.s.length = buf.length ∧ (w.sp : Int) ≤ 4 * (lit [0, 200]).n ∧
        put w 0 = some w2 ∧
        w2.s.length = buf.length ∧ (w2.sp : Int) ≤ 4 * (lit [0, 200]).n + 1)) :=
  ⟨by decide, by decide, by decide, by decide,
    renderLoop_in_bounds_of_no_overflow (lit [0, 200]) fmtHex (by decide) (by decide)⟩

theorem memcmp_take_left : ∀ (k m : Nat) (xs ys : List Byte), k ≤ m →
    memcmp (xs.take m) ys k = memcmp xs ys k := by
  intro k
  induction k with
  | zero => intro m xs ys _; simp [memcmp]
  | succ k ih =>
    intro m xs ys h
    obtain ⟨m, rfl⟩ : ∃ m2, m = m2 + 1 := ⟨m - 1, by omega⟩
    cases xs with
    | nil => simp
    | cons x xs =>
      cases ys with
      | nil => simp [memcmp]
      | cons y ys =>
        simp only [List.take_succ_cons, memcmp]
        rw [ih m xs ys (by omega)]

theorem memcmp_take_right : ∀ (k m : Nat) (xs ys : List Byte), k ≤ m →
    memcmp xs (ys.take m) k = memcmp xs ys k := by
  intro k
  induction k with
  | zero => intro m xs ys _; simp [memcmp]
  | succ k ih =>
    intro m xs ys h
    obtain ⟨m, rfl⟩ : ∃ m2, m = m2 + 1 := ⟨m - 1, by omega⟩
    cases xs with
    | nil => simp [memcmp]
    | cons x xs =>
      cases ys with
      | nil => simp
      | cons y ys =>
        simp only [List.take_succ_cons, memcmp]
        rw [ih m xs ys (by omega)]

theorem memcmp_self : ∀ (k : Nat) (xs : List Byte), memcmp xs xs k = 0 := by
  intro k
  induction k with
  | zero => intro xs; simp [memcmp]
  | succ k ih =>
    intro xs
    cases xs with
    | nil => simp [memcmp]
    | cons x xs => simp [memcmp, ih]

theorem memcmp_eq_zero : ∀ (k : Nat) (xs ys : List Byte), k ≤ xs.length → k ≤ ys.length →
    (memcmp xs ys k = 0 ↔ xs.take k = ys.take k) := by
  intro k
  induction k with
  | zero => intro xs ys _ _; simp [memcmp]
  | succ k ih =>
    intro xs ys hx hy
    cases xs with
    | nil => simp at hx
    | cons x xs =>
      cases ys with
      | nil => simp at hy
      | cons y ys =>
        simp only [List.length_cons] at hx hy
        simp only [memcmp, List.take_succ_cons, List.cons.injEq]
        by_cases hxy : x = y
        · rw [if_pos hxy, ih xs ys (by omega) (by omega)]
          simp [hxy]
        · rw [if_neg hxy]
          have : x.val ≠ y.val := fun h => hxy (Fin.ext h)
          constructor
          · intro h; omega
          · intro h; exact absurd h.1 hxy

theorem sign_specCompare : ∀ (xs ys : List Byte),
    Int.sign (if memcmp xs ys (min xs.length ys.length) ≠ 0 ∨ (xs.length : Int) = ys.length
        then memcmp xs ys (min xs.length ys.length)
        else if (xs.length : Int) < ys.length then -1 else 1)
      = specCompare xs ys := by
  intro xs
  induction xs with
  | nil =>
    intro ys
    cases ys with
    | nil => simp [memcmp, specCompare]
    | cons y ys =>
      have h1 : ¬ ((0 : Int) = (ys.length : Int) + 1) := by omega
      have h2 : (0 : Int) < (ys.length : Int) + 1 := by omega
      simp [memcmp, specCompare, h1, h2]
  | cons x xs ih =>
    intro ys
    cases ys with
    | nil =>
      have h1 : ¬ ((xs.length : Int) + 1 = 0) := by omega
      have h2 : ¬ ((xs.length : Int) + 1 < 0) := by omega
      simp [memcmp, specCompare, h1, h2]
    | cons y ys =>
      have hmin : min (x :: xs).length (y :: ys).length = min xs.length ys.length + 1 := by
        simp only [List.length_cons]; omega
      rw [hmin]
      simp only [memcmp, specCompare]
      by_cases hxy : x = y
      · subst hxy
        have hlt : ¬ (x.val < x.val) := by omega
        rw [if_pos rfl, if_neg hlt, if_neg hlt, ← ih ys]
        have e1 : (((x :: xs).length : Nat) : Int) = ((x :: ys).length : Nat)
            ↔ ((xs.length : Nat) : Int) = (ys.length : Nat) := by
          simp only [List.length_cons]; omega
        have e2 : (((x :: xs).length : Nat) : Int) < ((x :: ys).length : Nat)
            ↔ ((xs.length : Nat) : Int) < (ys.length : Nat) := by
          simp only [List.length_cons]; omega
        simp only [e1, e2]
      · rw [if_neg hxy]
        have hne : x.val ≠ y.val := fun h => hxy (Fin.ext h)
        have hnz : (x.val : Int) - (y.val : Int) ≠ 0 := by omega
        rw [if_pos (Or.inl hnz)]
        by_cases hlt : x.val < y.val
        · rw [if_pos hlt]
          exact Int.sign_eq_neg_one_of_neg (by omega)
        · rw [if_neg hlt, if_pos (by omega)]
          exact Int.sign_eq_one_of_pos (by omega)

theorem specCompare_swap : ∀ (xs ys : List Byte), specCompare ys xs = - specCompare xs ys := by
  intro xs
  induction xs with
  | nil => intro ys; cases ys <;> simp [specCompare]
  | cons x xs ih =>
    intro ys
    cases ys with
    | nil => simp [specCompare]
    | cons y ys =>
      simp only [specCompare]
      by_cases h1 : x.val < y.val
      · have h2 : ¬ y.val < x.val := by omega
        simp [h1, h2]
      · by_cases h2 : y.val < x.val
        · simp [h1, h2]
        · simp [h1, h2, ih ys]

theorem specCompare_range : ∀ (xs ys : List Byte),
    specCompare xs ys = -1 ∨ specCompare xs ys = 0 ∨ specCompare xs ys = 1 := by
  intro xs
  induction xs with
  | nil => intro ys; cases ys <;> simp [specCompare]
  | cons x xs ih =>
    intro ys
    cases ys with
    | nil => simp [specCompare]
    | cons y ys =>
      simp only [specCompare]
      split_ifs
      · simp
      · simp
      · exact ih ys

theorem specCompare_eq_zero : ∀ (xs ys : List Byte), specCompare xs ys = 0 ↔ xs = ys := by
  intro xs
  induction xs with
  | nil => intro ys; cases ys <;> simp [specCompare]
  | cons x xs ih =>
    intro ys
    cases ys with
    | nil => simp [specCompare]
    | cons y ys =>
      simp only [specCompare, List.cons.injEq]
      split_ifs with h1 h2
      · have : x ≠ y := fun h => by rw [h] at h1; omega
        simp [this]
      · have : x ≠ y := fun h => by rw [h] at h2; omega
        simp [this]
      · have : x = y := Fin.ext (by omega)
        simp [this, ih ys]

theorem specCompare_trans_le : ∀ (xs ys zs : List Byte),
    specCompare xs ys ≤ 0 → specCompare ys zs ≤ 0 → specCompare xs zs ≤ 0 := by
  intro xs
  induction xs with
  | nil => intro ys zs _ _; cases zs <;> simp [specCompare]
  | cons x xs ih =>
    intro ys zs h1 h2
    cases ys with
    | nil => simp [specCompare] at h1
    | cons y ys =>
      cases zs with
      | nil => simp [specCompare] at h2
      | cons z zs =>
        simp only [specCompare] at h1 h2 ⊢
        split_ifs at h1 h2 ⊢ <;> first | omega | exact ih ys zs h1 h2

theorem specCompare_trans_lt : ∀ (xs ys zs : List Byte),
    specCompare xs ys < 0 → specCompare ys zs < 0 → specCompare xs zs < 0 := by
  intro xs
  induction xs with
  | nil =>
    intro ys zs h1 h2
    cases zs with
    | nil => cases ys <;> simp [specCompare] at h1 h2
    | cons z zs => simp [specCompare]
  | cons x xs ih =>
    intro ys zs h1 h2
    cases ys with
    | nil => simp [specCompare] at h1
    | cons y ys =>
      cases zs with
      | nil => simp [specCompare] at h2
      | cons z zs =>
        simp only [specCompare] at h1 h2 ⊢
        split_ifs at h1 h2 ⊢ <;> first | omega | exact ih ys zs h1 h2

theorem mem_take_bytes (a : ZeekString) : a.mem.take a.n.toNat = a.bytes := rfl

theorem Bstr_cmp_eq (a b : ZeekString) (ha : a.Inv) (hb : b.Inv) :
    Bstr_cmp a b =
      if memcmp a.bytes b.bytes (min a.bytes.length b.bytes.length) ≠ 0
          ∨ (a.bytes.length : Int) = b.bytes.length
        then memcmp a.bytes b.bytes (min a.bytes.length b.bytes.length)
        else if (a.bytes.length : Int) < b.bytes.length then -1 else 1 := by
  have han := bytes_length a ha
  have hbn := bytes_length b hb
  have hk : (min a.n b.n).toNat = min a.bytes.length b.bytes.length := by omega
  have e1 : memcmp a.bytes b.bytes (min a.bytes.length b.bytes.length)
      = memcmp a.mem b.mem (min a.bytes.length b.bytes.length) := by
    show memcmp (a.mem.take a.n.toNat) (b.mem.take b.n.toNat) _ = _
    rw [memcmp_take_left _ _ _ _ (by omega), memcmp_take_right _ _ _ _ (by omega)]
  have hcmp : (if min a.n b.n = 0 then 0 else memcmp a.mem b.mem (min a.n b.n).toNat)
      = memcmp a.bytes b.bytes (min a.bytes.length b.bytes.length) := by
    rw [e1, hk]
    split
    · rename_i h0
      have : min a.bytes.length b.bytes.length = 0 := by omega
      rw [this]; simp [memcmp]
    · rfl
  unfold Bstr_cmp
  simp only []
  rw [hcmp, han, hbn]

theorem Bstr_cmp_sign (a b : ZeekString) (ha : a.Inv) (hb : b.Inv) :
    Int.sign (Bstr_cmp a b) = specCompare a.bytes b.bytes := by
  rw [Bstr_cmp_eq a b ha hb]
  exact sign_specCompare a.bytes b.bytes

theorem sign_le_zero (x : Int) : Int.sign x ≤ 0 ↔ x ≤ 0 := by
  rcases lt_trichotomy x 0 with h | h | h
  · rw [Int.sign_eq_neg_one_of_neg h]; omega
  · subst h; simp
  · rw [Int.sign_eq_one_of_pos h]; omega

theorem sign_lt_zero (x : Int) : Int.sign x < 0 ↔ x < 0 := by
  rcases lt_trichotomy x 0 with h | h | h
  · rw [Int.sign_eq_neg_one_of_neg h]; omega
  · subst h; simp
  · rw [Int.sign_eq_one_of_pos h]; omega

theorem Bstr_cmp_le (a b : ZeekString) (ha : a.Inv) (hb : b.Inv) :
    Bstr_cmp a b ≤ 0 ↔ specCompare a.bytes b.bytes ≤ 0 := by
  rw [← Bstr_cmp_sign a b ha hb, sign_le_zero]

theorem Bstr_cmp_lt (a b : ZeekString) (ha : a.Inv) (hb : b.Inv) :
    Bstr_cmp a b < 0 ↔ specCompare a.bytes b.bytes < 0 := by
  rw [← Bstr_cmp_sign a b ha hb, sign_lt_zero]

theorem Bstr_cmp_zero (a b : ZeekString) (ha : a.Inv) (hb : b.Inv) :
    Bstr_cmp a b = 0 ↔ a.bytes = b.bytes := by
  rw [← specCompare_eq_zero, ← Bstr_cmp_sign a b ha hb, Int.sign_eq_zero_iff_zero]

/-- Claim C11: for buffers satisfying the invariant, the sign of
`Bstr_cmp(a, b)` is the negation of the sign of `Bstr_cmp(b, a)`; and when `a`
and `b` have equal lengths and the same bytes, `Bstr_cmp(a, b)` is 0. -/
theorem Bstr_cmp_antisymmetric (a b : ZeekString) (ha : a.Inv) (hb : b.Inv) :
    Int.sign (Bstr_cmp a b) = - Int.sign (Bstr_cmp b a) ∧
    (a.n = b.n → a.bytes = b.bytes → Bstr_cmp a b = 0) := by
  constructor
  · rw [Bstr_cmp_sign a b ha hb, Bstr_cmp_sign b a hb ha, specCompare_swap b.bytes a.bytes]
  · intro _ h
    exact (Bstr_cmp_zero a b ha hb).mpr h

/-- Claim C12: for buffers satisfying the invariant, `Bstr_cmp` orders by
content: its sign is the lexicographic comparison of the contents as unsigned
bytes, a proper initial part coming before the longer content; any two buffers
are comparable; and the order is transitive, for `Bstr_cmp(.,.) <= 0` and for
`operator<`. -/
theorem Bstr_cmp_total_order (a b c : ZeekString) (ha : a.Inv) (hb : b.Inv) (hc : c.Inv) :
    Int.sign (Bstr_cmp a b) = specCompare a.bytes b.bytes ∧
    (a.bytes.length < b.bytes.length → a.bytes = b.bytes.take a.bytes.length →
      Bstr_cmp a b < 0) ∧
    (Bstr_cmp a b ≤ 0 ∨ Bstr_cmp b a ≤ 0) ∧
    (Bstr_cmp a b ≤ 0 → Bstr_cmp b c ≤ 0 → Bstr_cmp a c ≤ 0) ∧
    (a.operatorLt b = true → b.operatorLt c = true → a.operatorLt c = true) := by
  refine ⟨Bstr_cmp_sign a b ha hb, ?_, ?_, ?_, ?_⟩
  · intro hlen hpre
    rw [Bstr_cmp_eq a b ha hb]
    have hmin : min a.bytes.length b.bytes.length = a.bytes.length := by omega
    have hz : memcmp a.bytes b.bytes a.bytes.length = 0 := by
      rw [memcmp_eq_zero _ _ _ (le_refl _) (by omega), List.take_length]
      exact hpre
    rw [hmin, hz, if_neg (by omega), if_pos (by omega)]
    decide
  · rw [Bstr_cmp_le a b ha hb, Bstr_cmp_le b a hb ha, specCompare_swap a.bytes b.bytes]
    omega
  · rw [Bstr_cmp_le a b ha hb, Bstr_cmp_le b c hb hc, Bstr_cmp_le a c ha hc]
    exact specCompare_trans_le _ _ _
  · unfold ZeekString.operatorLt
    simp only [decide_eq_true_eq]
    rw [Bstr_cmp_lt a b ha hb, Bstr_cmp_lt b c hb hc, Bstr_cmp_lt a c ha hc]
    exact specCompare_trans_lt _ _ _

/-- Claim C13: for every buffer satisfying the invariant, the empty buffer
with null storage included, `Bstr_eq(a, a)` is true and `Bstr_cmp(a, a)` is
0. -/
theorem Bstr_reflexive (a : ZeekString) (ha : a.Inv) :
    Bstr_eq a a = true ∧ Bstr_cmp a a = 0 := by
  constructor
  · unfold Bstr_eq
    rw [if_neg (by simp)]
    split
    · rename_i h
      simpa using h
    · simp [memcmp_self]
  · exact (Bstr_cmp_zero a a ha ha).mpr rfl

/-- Claim C20: for buffers satisfying the invariant whose storage is not
null, `Bstr_eq(a, b)` is true exactly when `Bstr_cmp(a, b)` is 0, and
`operator==` holds exactly when neither `a < b` nor `b < a`. -/
theorem Bstr_eq_iff_cmp_zero (a b : ZeekString) (ha : a.Inv) (hb : b.Inv)
    (han : a.b ≠ none) (hbn : b.b ≠ none) :
    (Bstr_eq a b = true ↔ Bstr_cmp a b = 0) ∧
    (a.operatorEq b = true ↔ (a.operatorLt b = false ∧ b.operatorLt a = false)) := by
  have hla := bytes_length a ha
  have hlb := bytes_length b hb
  have heq : Bstr_eq a b = true ↔ a.bytes = b.bytes := by
    unfold Bstr_eq
    have hnone : ¬ (a.b.isNone = true ∨ b.b.isNone = true) := by
      simp only [Option.isNone_iff_eq_none]
      exact fun h => h.elim han hbn
    by_cases hn : a.n = b.n
    · rw [if_neg (by simpa using hn), if_neg hnone]
      simp only [decide_eq_true_eq]
      rw [← memcmp_take_left a.n.toNat a.n.toNat _ _ (le_refl _),
        ← memcmp_take_right a.n.toNat a.n.toNat _ _ (le_refl _)]
      have hb2 : b.mem.take a.n.toNat = b.bytes := by rw [hn]; rfl
      rw [mem_take_bytes, hb2, memcmp_eq_zero _ _ _ (by omega) (by omega)]
      rw [List.take_of_length_le (by omega), List.take_of_length_le (by omega)]
    · rw [if_pos hn]
      constructor
      · intro h; exact absurd h (by simp)
      · intro h
        rw [h] at hla
        omega
  have hcmp := Bstr_cmp_zero a b ha hb
  refine ⟨by rw [heq, hcmp], ?_⟩
  unfold ZeekString.operatorEq ZeekString.operatorLt
  simp only [decide_eq_false_iff_not]
  rw [heq, Bstr_cmp_lt a b ha hb, Bstr_cmp_lt b a hb ha, specCompare_swap a.bytes b.bytes,
    ← specCompare_eq_zero]
  omega

/-! ## Copying -/

theorem operatorAssign_eq (self s : ZeekString) :
    self.operatorAssign s = StringAdopted true (some (s.bytes ++ [0])) s.n := rfl

/-- Claim C14: for a source buffer satisfying the invariant, copy-assignment,
copy-construction and `Set(const String&)` give a buffer with the length of
the source, the same first `n` bytes, `final_NUL` set with a zero byte at
index `n`, and `use_free_to_delete` cleared, whatever the flags of the source
are. -/
theorem copy_is_terminated_deep_copy (self s r : ZeekString) (hs : s.Inv)
    (hr : r = self.operatorAssign s ∨ r = StringCopy s ∨ r = self.SetString s) :
    r.n = s.n ∧ r.bytes = s.bytes ∧ r.final_NUL = true ∧ r.mem[r.n.toNat]? = some 0 ∧
    r.use_free_to_delete = false ∧ r.Inv := by
  have key : ∀ t : ZeekString, (t.operatorAssign s).n = s.n ∧
      (t.operatorAssign s).bytes = s.bytes ∧ (t.operatorAssign s).final_NUL = true ∧
      (t.operatorAssign s).mem[(t.operatorAssign s).n.toNat]? = some 0 ∧
      (t.operatorAssign s).use_free_to_delete = false ∧ (t.operatorAssign s).Inv := by
    intro t
    rw [operatorAssign_eq]
    obtain ⟨h1, h2, h3⟩ := adopted_spec s.bytes s.n (bytes_length s hs)
    refine ⟨rfl, h1, h2, h3, rfl, hs.1, by simp [StringAdopted], ?_, fun _ => h3⟩
    have := bytes_length s hs
    simp only [StringAdopted, nulCount, mem, Option.getD_some, List.length_append,
      List.length_singleton, if_true]
    omega
  rcases hr with h | h | h
  · rw [h]; exact key self
  · rw [h]; exact key ZeekString.String
  · rw [h]; exact key self

/-! ## The invariant -/

theorem strlen_spec : ∀ (m : List Byte), (0 : Byte) ∈ m →
    m[strlen m]? = some 0 ∧ strlen m < m.length := by
  intro m
  induction m with
  | nil => intro h; simp at h
  | cons x m ih =>
    intro h
    by_cases hx : x = 0
    · simp [strlen, hx]
    · have hm : (0 : Byte) ∈ m := by
        rcases List.mem_cons.mp h with h | h
        · exact absurd h.symm hx
        · exact h
      obtain ⟨h1, h2⟩ := ih hm
      simp only [strlen, if_neg hx, List.getElem?_cons_succ, List.length_cons]
      exact ⟨h1, by omega⟩

theorem Set_Inv (self : ZeekString) (str : List Byte) (len : Int) (add_NUL : Bool)
    (h0 : 0 ≤ len) (hl : len ≤ (str.length : Int)) : (self.Set str len add_NUL).Inv := by
  have hlen : (str.take len.toNat).length = len.toNat := by
    rw [List.length_take]; omega
  cases add_NUL with
  | true =>
    refine ⟨h0, by simp [ZeekString.Set], ?_, ?_⟩
    · simp only [ZeekString.Set, Reset, mem, nulCount, Option.getD_some, if_true,
        List.length_append, List.length_singleton]
      omega
    · intro _
      simp only [ZeekString.Set, Reset, mem, Option.getD_some, if_true]
      rw [List.getElem?_append_right (by omega)]
      simp [hlen]
  | false =>
    refine ⟨h0, by simp [ZeekString.Set], ?_, ?_⟩
    · simp only [ZeekString.Set, Reset, mem, nulCount, Option.getD_some,
        List.length_append]
      simp only [Bool.false_eq_true, if_false, List.length_nil]
      omega
    · intro h
      simp [ZeekString.Set] at h

theorem SetCStr_Inv (self : ZeekString) (m : List Byte) (h : (0 : Byte) ∈ m) :
    (self.SetCStr (some m)).Inv := by
  obtain ⟨h1, h2⟩ := strlen_spec m h
  have e : (((strlen m : Nat) : Int) + 1).toNat = strlen m + 1 := by omega
  refine ⟨by simp [SetCStr], by simp [SetCStr], ?_, ?_⟩
  · simp only [SetCStr, Reset, mem, nulCount, Option.getD_some, if_true, e, List.length_take]
    omega
  · intro _
    simp only [SetCStr, Reset, mem, Option.getD_some, e, Int.toNat_ofNat]
    rw [List.getElem?_take_of_lt (by omega)]
    exact h1

theorem SetStdString_Inv (self : ZeekString) (str : List Byte) :
    (self.SetStdString str).Inv := by
  have e : (((str.length : Nat) : Int) + 1).toNat = str.length + 1 := by omega
  have ht : (str ++ [0]).take (str.length + 1) = str ++ [0] := by
    apply List.take_of_length_le; simp
  refine ⟨by simp [SetStdString], by simp [SetStdString], ?_, ?_⟩
  · simp only [SetStdString, Reset, mem, nulCount, Option.getD_some, if_true, e, ht,
      List.length_append, List.length_singleton]
    omega
  · intro _
    simp only [SetStdString, Reset, mem, Option.getD_some, e, ht, Int.toNat_ofNat]
    simp

theorem Adopt_Inv (self : ZeekString) (bytes : List Byte) (len : Int) (h1 : 1 ≤ len)
    (hlen : (bytes.length : Int) = len) : (self.Adopt bytes len).Inv := by
  have hidx : (len - 1).toNat = len.toNat - 1 := by omega
  by_cases hz : bytes[(len - 1).toNat]? = some 0
  · have e : self.Adopt bytes len
        = { b := some bytes, n := len - 1, final_NUL := true, use_free_to_delete := false } := by
      have hz2 := hz
      rw [hidx] at hz2
      simp [Adopt, Reset, mem, hz2]
    rw [e]
    refine ⟨by simp only; omega, by simp, ?_, fun _ => hz⟩
    simp only [nulCount, mem, Option.getD_some, if_true]
    omega
  · have e : self.Adopt bytes len
        = { b := some bytes, n := len, final_NUL := false, use_free_to_delete := false } := by
      have hz2 := hz
      rw [hidx] at hz2
      simp [Adopt, Reset, mem, hz2]
    rw [e]
    refine ⟨by simp only; omega, by simp, ?_, fun h => by simp at h⟩
    simp only [nulCount, mem, Option.getD_some]
    simp only [Bool.false_eq_true, if_false]
    omega

theorem ToUpper_Inv (s : ZeekString) (hs : s.Inv) : s.ToUpper.Inv := by
  obtain ⟨h0, h1, h2, h3⟩ := hs
  have hn : s.n ≤ (s.mem.length : Int) := by
    unfold nulCount at h2; split at h2 <;> omega
  cases hb : s.b with
  | none =>
    have := h1 hb
    refine ⟨h0, fun _ => this, ?_, ?_⟩
    · simp only [ToUpper, nulCount, mem, hb, Option.map_none', Option.getD_none, this.1,
        this.2, List.length_nil]
      simp
    · intro h
      simp only [ToUpper] at h
      rw [this.2] at h
      exact absurd h (by simp)
  | some m =>
    have hm : s.mem = m := by simp [mem, hb]
    rw [hm] at h2 h3 hn
    have hlen : ((m.take s.n.toNat).map
        (fun c => if islower c = true then toupper c else c)).length = s.n.toNat := by
      rw [List.length_map, List.length_take]; omega
    refine ⟨h0, ?_, ?_, ?_⟩
    · intro h
      simp [ToUpper, hb] at h
    · simp only [ToUpper, nulCount, mem, hb, Option.map_some', Option.getD_some,
        List.length_append, List.length_map, List.length_take, List.length_drop]
      simp only [nulCount] at h2
      split at h2 <;> rename_i hf <;> simp only [hf] <;> simp <;> omega
    · intro hf
      simp only [ToUpper] at hf
      simp only [ToUpper, mem, hb, Option.map_some', Option.getD_some]
      rw [List.getElem?_append_right (by omega), hlen, Nat.sub_self, List.getElem?_drop]
      exact h3 hf

theorem GetSubstring_Inv (s : ZeekString) (hs : s.Inv) (start len : Int) (r : ZeekString)
    (h : s.GetSubstring start len = some r) : r.Inv := by
  obtain ⟨h0, -, hmem, -⟩ := hs
  have hmem2 : s.n ≤ (s.mem.length : Int) := by
    unfold nulCount at hmem; split at hmem <;> omega
  unfold GetSubstring at h
  split at h
  · exact absurd h (by simp)
  · rename_i hr
    simp only [Option.some.injEq] at h
    rw [← h]
    apply (StringBytes_spec _ _ _ _).2.2.2.2.2.2
    · split <;> omega
    · rw [List.length_drop]
      split <;> omega

theorem concatenate_Inv (l : List Byte) (n : Int) (h : (l.length : Int) = n) :
    (StringAdopted true (some (l ++ [0])) n).Inv := by
  obtain ⟨-, -, h3⟩ := adopted_spec l n h
  refine ⟨by show 0 ≤ n; omega, by simp [StringAdopted], ?_, fun _ => h3⟩
  simp only [StringAdopted, nulCount, mem, Option.getD_some, List.length_append,
    List.length_singleton, if_true]
  omega

/-! ## Split: the split points and the segments together -/

theorem Split_nil (s : ZeekString) : s.Split [] = none := rfl

theorem Split_of_ne_nil (s : ZeekString) (indices : List Int) (hne : indices ≠ []) :
    s.Split indices = some (s.splitLoop (splitPoints s.n indices)) := by
  unfold Split splitPoints
  rw [if_neg (by simpa using hne)]

theorem splitPoints_mem (n : Int) (indices : List Int) (x : Int) :
    x ∈ splitPoints n indices ↔ x = 0 ∨ (x ∈ indices ∧ 0 ≤ x ∧ x < n) := by
  unfold splitPoints
  rw [mem_unique, (List.perm_insertionSort _ _).mem_iff, mem_idx]

theorem splitPoints_sorted (n : Int) (indices : List Int) :
    (splitPoints n indices).Sorted (· < ·) :=
  sorted_unique _ (List.sorted_insertionSort (· ≤ ·) _)

theorem splitPoints_bounds (n : Int) (indices : List Int) (hn : 0 ≤ n) :
    ∀ x ∈ splitPoints n indices, 0 ≤ x ∧ x ≤ n := by
  intro x hx
  rcases (splitPoints_mem n indices x).mp hx with h | h <;> omega

theorem splitPoints_head (n : Int) (indices : List Int) :
    ∃ rest, splitPoints n indices = 0 :: rest := by
  have h0 : (0 : Int) ∈ splitPoints n indices := (splitPoints_mem n indices 0).mpr (Or.inl rfl)
  have hs := splitPoints_sorted n indices
  cases hD : splitPoints n indices with
  | nil => rw [hD] at h0; simp at h0
  | cons d rest =>
    rw [hD] at h0 hs
    have hd : 0 ≤ d := by
      have : d ∈ splitPoints n indices := by rw [hD]; exact List.mem_cons_self _ _
      rcases (splitPoints_mem n indices d).mp this with h | h <;> omega
    rcases List.mem_cons.mp h0 with h | h
    · exact ⟨rest, by rw [← h]⟩
    · have := List.rel_of_sorted_cons hs 0 h
      omega

theorem splitLoop_ne_nil (s : ZeekString) (d : Int) (rest : List Int) :
    s.splitLoop (d :: rest) ≠ [] := by
  cases rest <;> simp [splitLoop]

theorem bytes_drop_all (s : ZeekString) (hs : s.Inv) (x : Int) (hx : 0 ≤ x) :
    (s.bytes.drop x.toNat).take (s.n - x).toNat = s.bytes.drop x.toNat := by
  apply List.take_of_length_le
  have := bytes_length s hs
  rw [List.length_drop]
  omega

theorem splitLoop_segments (s : ZeekString) (hs : s.Inv) :
    ∀ (d : Int) (rest : List Int), (d :: rest).Sorted (· < ·) →
      (∀ x ∈ d :: rest, 0 ≤ x ∧ x ≤ s.n) →
      ∃ segs : List ZeekString, s.splitLoop (d :: rest) = segs.map some ∧
        (∀ seg ∈ segs, seg.Inv ∧ seg.final_NUL = true) ∧
        (segs.map ZeekString.bytes).flatten = s.bytes.drop d.toNat
  | x, [], _, hb => by
    have hx := hb x (List.mem_singleton_self x)
    obtain ⟨e1, e2, -, e4⟩ := segment_ok s hs x s.n hx.1 hx.2 (le_refl _)
    refine ⟨[StringBytes (s.mem.drop x.toNat) (s.n - x) true], ?_, ?_, ?_⟩
    · simp only [splitLoop, List.map_cons, List.map_nil]
      rw [GetSubstring_rest s x (-1) hx.1 hx.2 (by omega)]
    · intro seg hseg
      rw [List.mem_singleton.mp hseg]
      exact ⟨e2, e1⟩
    · simp only [List.map_cons, List.map_nil, List.flatten_cons, List.flatten_nil,
        List.append_nil]
      rw [e4, bytes_drop_all s hs x hx.1]
  | x, y :: rest, hsort, hb => by
    have hx := hb x (List.mem_cons_self _ _)
    have hy := hb y (List.mem_cons_of_mem _ (List.mem_cons_self _ _))
    have hxy : x < y := List.rel_of_sorted_cons hsort y (List.mem_cons_self _ _)
    obtain ⟨segs, ih1, ih2, ih3⟩ := splitLoop_segments s hs y rest (List.Sorted.of_cons hsort)
      (fun z hz => hb z (List.mem_cons_of_mem _ hz))
    obtain ⟨e1, e2, -, e4⟩ := segment_ok s hs x y hx.1 (by omega) hy.2
    refine ⟨StringBytes (s.mem.drop x.toNat) (y - x) true :: segs, ?_, ?_, ?_⟩
    · simp only [splitLoop, List.map_cons]
      rw [GetSubstring_some s x (y - x) hx.1 hx.2 (by omega) (by omega), ih1]
    · intro seg hseg
      rcases List.mem_cons.mp hseg with h | h
      · rw [h]; exact ⟨e2, e1⟩
      · exact ih2 seg h
    · simp only [List.map_cons, List.flatten_cons]
      rw [ih3, e4]
      have hyx : y.toNat = x.toNat + (y - x).toNat := by omega
      rw [hyx, ← List.drop_drop, List.take_append_drop]

theorem Split_segments_all (s : ZeekString) (hs : s.Inv) (indices : List Int)
    (hne : indices ≠ []) :
    ∃ segs : List ZeekString, s.Split indices = some (segs.map some) ∧ segs ≠ [] ∧
      (∀ seg ∈ segs, seg.Inv ∧ seg.final_NUL = true) ∧
      (segs.map ZeekString.bytes).flatten = s.bytes := by
  obtain ⟨rest, hD⟩ := splitPoints_head s.n indices
  have hsort := splitPoints_sorted s.n indices
  have hb := splitPoints_bounds s.n indices hs.1
  rw [hD] at hsort hb
  obtain ⟨segs, h1, h2, h3⟩ := splitLoop_segments s hs 0 rest hsort hb
  refine ⟨segs, ?_, ?_, h2, by simpa using h3⟩
  · rw [Split_of_ne_nil s indices hne, hD, h1]
  · intro hnil
    rw [hnil] at h1
    exact splitLoop_ne_nil s 0 rest (by simpa using h1)

theorem foldl_push {α : Type} (v : List α) (acc : List α) :
    v.foldl (fun cv s => cv ++ [s]) acc = acc ++ v := by
  induction v generalizing acc with
  | nil => simp
  | cons x v ih => simp [ih]

theorem concatenateVec_eq (v : List ZeekString) : concatenateVec v = concatenate v := by
  unfold concatenateVec
  simp only []
  rw [foldl_push]
  rfl

/-- Claim C16: `Split` returns the absent result exactly when the index list
is empty; for a non-empty index list it returns, on every buffer, a vector
with at least one element, and on a buffer satisfying the invariant (the empty
buffer included) the first element, like every element, is a present
segment. -/
theorem Split_absent_iff_empty (s : ZeekString) (indices : List Int) :
    (s.Split indices = none ↔ indices = []) ∧
    (indices ≠ [] → ∃ segs, s.Split indices = some segs ∧ segs ≠ [] ∧ 1 ≤ segs.length) ∧
    (s.Inv → indices ≠ [] → ∃ seg rest, s.Split indices = some (some seg :: rest) ∧
      ∀ x ∈ some seg :: rest, x ≠ none) := by
  refine ⟨?_, ?_, ?_⟩
  · constructor
    · intro h
      by_contra hne
      rw [Split_of_ne_nil s indices hne] at h
      exact absurd h (by simp)
    · intro h
      rw [h]; rfl
  · intro hne
    obtain ⟨rest, hD⟩ := splitPoints_head s.n indices
    refine ⟨_, Split_of_ne_nil s indices hne, ?_, ?_⟩
    · rw [hD]; exact splitLoop_ne_nil s 0 rest
    · rw [hD]
      exact List.length_pos.mpr (splitLoop_ne_nil s 0 rest)
  · intro hs hne
    obtain ⟨segs, h1, h2, -, -⟩ := Split_segments_all s hs indices hne
    cases segs with
    | nil => exact absurd rfl h2
    | cons seg segs =>
      refine ⟨seg, segs.map some, by simpa using h1, ?_⟩
      intro x hx
      rcases List.mem_cons.mp hx with h | h
      · rw [h]; simp
      · obtain ⟨y, -, hy⟩ := List.mem_map.mp h
        rw [← hy]; simp

/-- Claim C17: for a buffer satisfying the invariant and a non-empty index
list, whatever its values, every element of the vector that `Split` returns
is a present segment, and concatenating the segments in order, with
`concatenate(String::Vec&)` or `concatenate(String::CVec&)`, gives a buffer
with the length and the bytes of the buffer that was split. -/
theorem Split_then_concatenate (s : ZeekString) (indices : List Int) (hs : s.Inv)
    (hne : indices ≠ []) :
    ∃ segs : List ZeekString, s.Split indices = some (segs.map some) ∧
      (concatenateVec segs).n = s.n ∧ (concatenateVec segs).bytes = s.bytes ∧
      (concatenate segs).n = s.n ∧ (concatenate segs).bytes = s.bytes := by
  obtain ⟨segs, h1, -, h3, h4⟩ := Split_segments_all s hs indices hne
  have hlen := flatten_length_sum (fun x : ZeekString => x.n) ZeekString.bytes segs
    (fun x hx => bytes_length x (h3 x hx).1)
  obtain ⟨a1, -, -⟩ := adopted_spec _ _ hlen
  have hn : (concatenate segs).n = s.n := by
    rw [concatenate_eq]
    show (segs.map (·.n)).sum = s.n
    rw [← hlen, h4, bytes_length s hs]
  have hb : (concatenate segs).bytes = s.bytes := by
    rw [concatenate_eq, a1, h4]
  refine ⟨segs, h1, ?_, ?_, hn, hb⟩
  · rw [concatenateVec_eq]; exact hn
  · rw [concatenateVec_eq]; exact hb

theorem specHexDigit_printable (d : Nat) (h : d < 16) :
    32 ≤ (specHexDigit d).val ∧ (specHexDigit d).val ≤ 126 := by
  interval_cases d <;> decide

theorem specEncodeByte_printable (format : Format) (hhex : format.hex = true) (c : Byte) :
    ∀ d ∈ specEncodeByte format c, 32 ≤ d.val ∧ d.val ≤ 126 := by
  intro d hd
  unfold specEncodeByte at hd
  split_ifs at hd with h1 h2 h3 h4
  · simp only [List.mem_cons, List.mem_singleton, List.not_mem_nil, or_false, or_self] at hd
    rw [hd]; decide
  · simp only [List.mem_cons, List.mem_singleton, List.not_mem_nil, or_false] at hd
    rcases hd with hd | hd
    · rw [hd]; decide
    · rw [hd]
      rcases h2.2 with h | h <;> (rw [h]; decide)
  · simp only [List.mem_cons, List.mem_singleton, List.not_mem_nil, or_false] at hd
    rcases hd with hd | hd | hd | hd
    · rw [hd]; decide
    · rw [hd]; decide
    · rw [hd]; exact specHexDigit_printable _ (by omega)
    · rw [hd]; exact specHexDigit_printable _ (by omega)
  · exact absurd ⟨hhex, h4.2⟩ h3
  · simp only [List.mem_singleton] at hd
    rw [hd]
    have : ¬ (c.val < 0x20 ∨ c.val > 0x7E) := fun h => h3 ⟨hhex, h⟩
    omega

theorem specEscape_printable (format : Format) (hhex : format.hex = true) (l : List Byte) :
    ∀ d ∈ specEscape format l, 32 ≤ d.val ∧ d.val ≤ 126 := by
  intro d hd
  unfold specEscape at hd
  obtain ⟨e, he, hde⟩ := List.mem_flatten.mp hd
  obtain ⟨c, -, hc⟩ := List.mem_map.mp he
  rw [← hc] at hde
  exact specEncodeByte_printable format hhex c d hde

theorem specEscape_fmtSer (l : List Byte) : specEscape fmtSer l = l := by
  induction l with
  | nil => rfl
  | cons c l ih =>
    rw [specEscape_cons, ih]
    simp [specEncodeByte, fmtSer]

theorem takeWhile_append_stop (p : Byte → Bool) (l : List Byte) (y : Byte) (r : List Byte)
    (hl : ∀ x ∈ l, p x = true) (hy : p y = false) :
    (l ++ y :: r).takeWhile p = l ∧ (l ++ y :: r).dropWhile p = y :: r := by
  induction l with
  | nil => simp [List.takeWhile, List.dropWhile, hy]
  | cons x l ih =>
    have hx := hl x (List.mem_cons_self _ _)
    obtain ⟨h1, h2⟩ := ih (fun z hz => hl z (List.mem_cons_of_mem _ hz))
    simp [List.takeWhile, List.dropWhile, hx, h1, h2]

theorem extractInt_decimal (v : Nat) (rest : List Byte) (hv : (v : Int) ≤ INT_MAX) :
    extractInt (decimal v ++ 32 :: rest) = some ((v : Int), 32 :: rest) := by
  have hdig := decimal_digits v
  have hisd : ∀ x ∈ decimal v, isdigit x = true := by
    intro x hx
    have := hdig x hx
    simp [isdigit, this]
  obtain ⟨h1, h2⟩ := takeWhile_append_stop isdigit (decimal v) 32 rest hisd (by decide)
  cases hdec : decimal v with
  | nil => exact absurd hdec (decimal_ne_nil v)
  | cons d ds =>
    have hd := hdig d (by rw [hdec]; exact List.mem_cons_self _ _)
    have hsp : isspace d = false := by
      simp only [isspace, decide_eq_false_iff_not]
      omega
    have h45 : ¬ d = 45 := fun h => by rw [h] at hd; omega
    have h43 : ¬ d = 43 := fun h => by rw [h] at hd; omega
    have hval := decimalValue_decimal v
    rw [hdec] at h1 h2 hval
    simp only [List.cons_append] at h1 h2
    have hdw : (d :: (ds ++ 32 :: rest)).dropWhile isspace = d :: (ds ++ 32 :: rest) := by
      simp [List.dropWhile_cons, hsp]
    unfold extractInt
    simp only [List.cons_append]
    rw [hdw]
    simp only [if_neg h45, if_neg h43]
    rw [h1, h2, hval]
    simp only [List.isEmpty_cons, Bool.false_eq_true, if_false]
    rw [if_neg]
    unfold INT_MIN
    omega

theorem lit_bytes (l : List Byte) : (lit l).bytes = l := by
  simp [bytes, mem, lit]

theorem Adopt_terminated (self : ZeekString) (l : List Byte) :
    self.Adopt (l ++ [0]) ((l.length : Int) + 1) = lit l := by
  have hidx : ((l.length : Int) + 1 - 1).toNat = l.length := by omega
  have hz : (l ++ [0])[l.length]? = some (0 : Byte) := by
    rw [List.getElem?_append_right (le_refl _)]; simp
  unfold Adopt lit
  simp only [Reset, mem, Option.getD_some, hidx, hz, decide_True, if_true]
  congr 1
  omega

theorem RenderTo_fmtSer (s : ZeekString) (hs : s.Inv) (hn : s.n ≤ INT_MAX)
    (hz : (0 : Byte) ∉ s.bytes) :
    s.RenderTo [] fmtSer = some (decimal s.n.toNat ++ 32 :: s.bytes) := by
  have hlen := bytes_length s hs
  have hL : (specEscape fmtSer s.bytes).length = s.n.toNat := by
    rw [specEscape_fmtSer]; omega
  have hr := Render_ser s fmtSer hs rfl (decimal_short s fmtSer hs hn)
  rw [hL, specEscape_fmtSer] at hr
  have hassoc : decimal s.n.toNat ++ [32] ++ (s.bytes ++ [0])
      = (decimal s.n.toNat ++ 32 :: s.bytes) ++ 0 :: [] := by simp
  have hnz : (0 : Byte) ∉ decimal s.n.toNat ++ 32 :: s.bytes := by
    intro h
    rcases List.mem_append.mp h with h | h
    · have := decimal_digits _ _ h
      simp at this
    · rcases List.mem_cons.mp h with h | h
      · exact absurd h (by decide)
      · exact hz h
  unfold RenderTo
  rw [hr, hassoc]
  simp only [Option.map_some', List.nil_append]
  rw [strlen_append _ [] hnz, List.take_left']
  rfl

/-- The statement of claim C11 at the contents `ab` and `abc`, where the two
results are -1 and 1. -/
theorem Bstr_cmp_antisymmetric_witness :
    (lit [97, 98]).Inv ∧ (lit [97, 98, 99]).Inv ∧
    Bstr_cmp (lit [97, 98]) (lit [97, 98, 99]) = -1 ∧
    Bstr_cmp (lit [97, 98, 99]) (lit [97, 98]) = 1 ∧
    (Int.sign (Bstr_cmp (lit [97, 98]) (lit [97, 98, 99]))
        = - Int.sign (Bstr_cmp (lit [97, 98, 99]) (lit [97, 98])) ∧
      ((lit [97, 98]).n = (lit [97, 98, 99]).n → (lit [97, 98]).bytes = (lit [97, 98, 99]).bytes →
        Bstr_cmp (lit [97, 98]) (lit [97, 98, 99]) = 0)) :=
  ⟨by decide, by decide, by decide, by decide,
    Bstr_cmp_antisymmetric (lit [97, 98]) (lit [97, 98, 99]) (by decide) (by decide)⟩

/-- The statement of claim C12 at the contents `ab`, `abc` and `b`. -/
theorem Bstr_cmp_total_order_witness :
    (lit [97, 98]).Inv ∧ (lit [97, 98, 99]).Inv ∧ (lit [98]).Inv ∧
    Bstr_cmp (lit [97, 98, 99]) (lit [98]) = -1 ∧
    (Int.sign (Bstr_cmp (lit [97, 98]) (lit [97, 98, 99]))
        = specCompare (lit [97, 98]).bytes (lit [97, 98, 99]).bytes ∧
      ((lit [97, 98]).bytes.length < (lit [97, 98, 99]).bytes.length →
        (lit [97, 98]).bytes = (lit [97, 98, 99]).bytes.take (lit [97, 98]).bytes.length →
        Bstr_cmp (lit [97, 98]) (lit [97, 98, 99]) < 0) ∧
      (Bstr_cmp (lit [97, 98]) (lit [97, 98, 99]) ≤ 0
        ∨ Bstr_cmp (lit [97, 98, 99]) (lit [97, 98]) ≤ 0) ∧
      (Bstr_cmp (lit [97, 98]) (lit [97, 98, 99]) ≤ 0 →
        Bstr_cmp (lit [97, 98, 99]) (lit [98]) ≤ 0 →
        Bstr_cmp (lit [97, 98]) (lit [98]) ≤ 0) ∧
      ((lit [97, 98]).operatorLt (lit [97, 98, 99]) = true →
        (lit [97, 98, 99]).operatorLt (lit [98]) = true →
        (lit [97, 98]).operatorLt (lit [98]) = true)) :=
  ⟨by decide, by decide, by decide, by decide,
    Bstr_cmp_total_order (lit [97, 98]) (lit [97, 98, 99]) (lit [98])
      (by decide) (by decide) (by decide)⟩

/-- The statement of claim C13 at the empty buffer with null storage. -/
theorem Bstr_reflexive_witness :
    ZeekString.String.Inv ∧ ZeekString.String.b = none ∧
    (Bstr_eq ZeekString.String ZeekString.String = true
      ∧ Bstr_cmp ZeekString.String ZeekString.String = 0) :=
  ⟨by decide, rfl, Bstr_reflexive ZeekString.String (by decide)⟩

/-- The statement of claim C14 for the copy-assignment of an adopted array
`abc` without final NUL to a buffer that held two other bytes. -/
theorem copy_is_terminated_deep_copy_witness :
    (Adopt ZeekString.String [97, 98, 99] 3).Inv ∧
    (Adopt ZeekString.String [97, 98, 99] 3).final_NUL = false ∧
    (lit [1, 2]).operatorAssign (Adopt ZeekString.String [97, 98, 99] 3) = lit [97, 98, 99] ∧
    ((lit [1, 2]).operatorAssign (Adopt ZeekString.String [97, 98, 99] 3)
        = (lit [1, 2]).operatorAssign (Adopt ZeekString.String [97, 98, 99] 3)
      ∨ (lit [1, 2]).operatorAssign (Adopt ZeekString.String [97, 98, 99] 3)
        = StringCopy (Adopt ZeekString.String [97, 98, 99] 3)
      ∨ (lit [1, 2]).operatorAssign (Adopt ZeekString.String [97, 98, 99] 3)
        = (lit [1, 2]).SetString (Adopt ZeekString.String [97, 98, 99] 3)) ∧
    (((lit [1, 2]).operatorAssign (Adopt ZeekString.String [97, 98, 99] 3)).n
        = (Adopt ZeekString.String [97, 98, 99] 3).n ∧
      ((lit [1, 2]).operatorAssign (Adopt ZeekString.String [97, 98, 99] 3)).bytes
        = (Adopt ZeekString.String [97, 98, 99] 3).bytes ∧
      ((lit [1, 2]).operatorAssign (Adopt ZeekString.String [97, 98, 99] 3)).final_NUL = true ∧
      ((lit [1, 2]).operatorAssign (Adopt ZeekString.String [97, 98, 99] 3)).mem[
        ((lit [1, 2]).operatorAssign (Adopt ZeekString.String [97, 98, 99] 3)).n.toNat]?
        = some 0 ∧
      ((lit [1, 2]).operatorAssign (Adopt ZeekString.String [97, 98, 99] 3)).use_free_to_delete
        = false ∧
      ((lit [1, 2]).operatorAssign (Adopt ZeekString.String [97, 98, 99] 3)).Inv) :=
  ⟨by decide, by decide, by decide, Or.inl rfl,
    copy_is_terminated_deep_copy (lit [1, 2]) (Adopt ZeekString.String [97, 98, 99] 3)
      ((lit [1, 2]).operatorAssign (Adopt ZeekString.String [97, 98, 99] 3))
      (by decide) (Or.inl rfl)⟩

/-- The statement of claim C16 at the empty buffer with null storage and the
single index 5: one segment, the empty one. -/
theorem Split_absent_iff_empty_witness :
    ZeekString.String.Split [] = none ∧
    ZeekString.String.Split [5] = some [some (lit [])] ∧
    ((ZeekString.String.Split [5] = none ↔ ([5] : List Int) = []) ∧
    (([5] : List Int) ≠ [] →
      ∃ segs, ZeekString.String.Split [5] = some segs ∧ segs ≠ [] ∧ 1 ≤ segs.length) ∧
    (ZeekString.String.Inv → ([5] : List Int) ≠ [] →
      ∃ seg rest, ZeekString.String.Split [5] = some (some seg :: rest) ∧
        ∀ x ∈ some seg :: rest, x ≠ none)) :=
  ⟨by decide, by decide, Split_absent_iff_empty ZeekString.String [5]⟩

/-- The statement of claim C17 at the content `abcdef` and the indices 4, 2,
9, -1, 2: the segments `ab`, `cd`, `ef` concatenate to `abcdef`. -/
theorem Split_then_concatenate_witness :
    (lit [97, 98, 99, 100, 101, 102]).Inv ∧ ([4, 2, 9, -1, 2] : List Int) ≠ [] ∧
    (lit [97, 98, 99, 100, 101, 102]).Split [4, 2, 9, -1, 2]
      = some [some (lit [97, 98]), some (lit [99, 100]), some (lit [101, 102])] ∧
    concatenateVec [lit [97, 98], lit [99, 100], lit [101, 102]]
      = lit [97, 98, 99, 100, 101, 102] ∧
    ∃ segs : List ZeekString,
      (lit [97, 98, 99, 100, 101, 102]).Split [4, 2, 9, -1, 2] = some (segs.map some) ∧
      (concatenateVec segs).n = (lit [97, 98, 99, 100, 101, 102]).n ∧
      (concatenateVec segs).bytes = (lit [97, 98, 99, 100, 101, 102]).bytes ∧
      (concatenate segs).n = (lit [97, 98, 99, 100, 101, 102]).n ∧
      (concatenate segs).bytes = (lit [97, 98, 99, 100, 101, 102]).bytes :=
  ⟨by decide, by decide, by decide, by decide,
    Split_then_concatenate (lit [97, 98, 99, 100, 101, 102]) [4, 2, 9, -1, 2]
      (by decide) (by decide)⟩

/-- The statement of claim C20 at the empty content and the content `a`, both
with storage; for the empty buffer with null storage against the empty buffer
with storage the two functions differ. -/
theorem Bstr_eq_iff_cmp_zero_witness :
    (lit []).Inv ∧ (lit [97]).Inv ∧ (lit []).b ≠ none ∧ (lit [97]).b ≠ none ∧
    Bstr_eq ZeekString.String (lit []) = false ∧ Bstr_cmp ZeekString.String (lit []) = 0 ∧
    ((Bstr_eq (lit []) (lit [97]) = true ↔ Bstr_cmp (lit []) (lit [97]) = 0) ∧
      ((lit []).operatorEq (lit [97]) = true
        ↔ ((lit []).operatorLt (lit [97]) = false ∧ (lit [97]).operatorLt (lit []) = false))) :=
  ⟨by decide, by decide, by decide, by decide, by decide, by decide,
    Bstr_eq_iff_cmp_zero (lit []) (lit [97]) (by decide) (by decide) (by decide) (by decide)⟩

/-! ## Render: the working buffer for long content -/

/-- Claim C9 fails on the code. For the buffer of `2^30` bytes `a` with its
final NUL, which satisfies the invariant and whose length is an `int`, the
expression `n*4 + 1` evaluated in `int` is 1, so the working buffer that
`Render` allocates has one byte; under every format the escaping loop then
makes a write outside of that buffer. -/
theorem Render_working_buffer_overflows :
    (lit (List.replicate 1073741824 97)).Inv ∧
    (lit (List.replicate 1073741824 97)).n = 1073741824 ∧
    (lit (List.replicate 1073741824 97)).n ≤ INT_MAX ∧
    workingBufferSize (lit (List.replicate 1073741824 97)).n = 1 ∧
    allocWorkingBuffer (lit (List.replicate 1073741824 97)).n = some [none] ∧
    ∀ format : Format,
      renderLoop format (lit (List.replicate 1073741824 97)).bytes { s := [none], sp := 0 }
        = none := by
  have hn : (lit (List.replicate 1073741824 97)).n = 1073741824 := by
    show ((List.replicate 1073741824 (97 : Byte)).length : Int) = 1073741824
    rw [List.length_replicate]
    rfl
  have hsize : workingBufferSize (1073741824 : Int) = 1 := by
    unfold workingBufferSize intWrap
    omega
  refine ⟨lit_Inv _, hn, ?_, ?_, ?_, ?_⟩
  · rw [hn]; unfold INT_MAX; omega
  · rw [hn]; exact hsize
  · rw [hn]
    unfold allocWorkingBuffer
    rw [hsize]
    rfl
  · intro format
    apply renderLoop_overflows
    rw [lit_bytes, List.length_replicate]
    show 1 < 1073741824
    omega

end zeek
